import Mathlib

/-!
# ansible-dns-inventory: inventory tree construction and export engine

A shallow embedding of the core of the `ansible-dns-inventory` repository:
the attribute parser, the record expander, the inventory tree
(`Node.ImportHosts`, `Node.AddChild`, `Node.AddHost`, `Node.SortChildren`,
`Node.GetAllHosts`) and the three exporters (`ExportInventory`,
`ExportHosts`, `ExportGroups`), together with theorems about them.

Conventions of the embedding:
* Go strings are Lean `String`s; all character-level reasoning goes through
  the underlying `String.data` character list.
* `Go`'s `strings.Split` is modelled by `goSplit` (the `sep = ""` case, in
  which Go splits into runes, is modelled as the identity split; no theorem
  below depends on an empty separator).
* Go's `map[string]bool` host sets are modelled as duplicate-free ordered
  lists maintained by `insertStr` (a set insertion, exactly as idempotent as
  the Go map assignment `m[h] = true`).
* Go's `map[string]X` accumulators used by the exporters are modelled as
  association lists with first-occurrence lookup (`lookupS`) and
  replace-or-append update (`upsertS`), which matches Go map reads/writes.
* Tree nodes carry no parent pointer; the export traversals instead pass the
  list of ancestor group names down the recursion, which computes exactly
  what `Node.GetAncestors` computes from the parent back-references: the
  walk up the parent pointers stops at the first parent with an empty name
  (the root's pseudo-parent is empty-named), so the accumulator resets to
  `[]` below an empty-named group.
* `Node.ImportHosts` iterates over Go maps whose enumeration order is
  unspecified; the embedding fixes the order (environment of the record
  first, then the synthetic "all" environment, records in list order).
-/

namespace ADI

/-! ## Go string splitting (`strings.Split`, `strings.SplitN`) -/

/-- Split `s` on every (leftmost, non-overlapping) occurrence of the
non-empty separator `sep`, structurally recursive on a fuel bound so that it
evaluates inside the kernel (`s.length + 1` fuel always suffices, since each
step consumes at least one character). -/
def splitList (sep : List Char) : Nat → List Char → List (List Char)
  | 0, s => [s]
  | _ + 1, [] => [[]]
  | fuel + 1, c :: rest =>
    if sep.isPrefixOf (c :: rest) then
      [] :: splitList sep fuel (List.drop sep.length (c :: rest))
    else
      match splitList sep fuel rest with
      | [] => [[c]]
      | r :: rs => (c :: r) :: rs

/-- Model of Go `strings.Split(s, sep)`.  For `sep = ""` Go splits into
runes; that case is modelled as `[s]` and is not relied upon by any claim. -/
def goSplit (s sep : String) : List String :=
  if sep.data = [] then [s]
  else (splitList sep.data (s.data.length + 1) s.data).map fun l => ⟨l⟩

/-- Split at the first occurrence of `sep`, if any (helper for `SplitN _ _ 2`). -/
def splitFirstAux (sep : List Char) : List Char → Option (List Char × List Char)
  | [] => none
  | c :: rest =>
    if sep ≠ [] ∧ sep.isPrefixOf (c :: rest) then
      some ([], List.drop sep.length (c :: rest))
    else
      (splitFirstAux sep rest).map fun p => (c :: p.1, p.2)

/-- Model of Go `strings.SplitN(s, sep, 2)`. -/
def goSplitN2 (s sep : String) : List String :=
  match splitFirstAux sep.data s.data with
  | none => [s]
  | some p => [⟨p.1⟩, ⟨p.2⟩]

/-! ## String ordering (Go `<` on strings, bytewise lexicographic) -/

/-- Lexicographic `≤` on character lists, comparing code points (for UTF-8
strings this coincides with Go's bytewise string comparison). -/
def listCharLe : List Char → List Char → Bool
  | [], _ => true
  | _ :: _, [] => false
  | a :: as, b :: bs =>
    if a.val.toNat < b.val.toNat then true
    else if b.val.toNat < a.val.toNat then false
    else listCharLe as bs

/-- Lexicographic `≤` on strings (kernel-evaluable model of Go's `<=`). -/
def strLe (a b : String) : Bool := listCharLe a.data b.data

/-! ## Sorted string-set insertion (Go `map[string]bool` model) -/

/-- Ordered insertion of a string into a list. -/
def insStr (h : String) : List String → List String
  | [] => [h]
  | x :: xs => if strLe h x then h :: x :: xs else x :: insStr h xs

/-- Set insertion modelling the Go map write `m[h] = true`: a no-op when the
key is already present, ordered insertion otherwise. -/
def insertStr (h : String) (l : List String) : List String :=
  if h ∈ l then l else insStr h l

/-- Sorted union: insert every element of the first list into the second. -/
def unionStr : List String → List String → List String
  | [], acc => acc
  | x :: xs, acc => unionStr xs (insertStr x acc)

/-- Model of Go `sort.Strings` on a collected list of map keys. -/
def sortStrings (l : List String) : List String :=
  unionStr l []

/-! ## Host attributes (`HostAttributes`) and configuration -/

/-- `HostAttributes` from `pkg/inventory/types.go`: host attributes found in
TXT records (OS, environment, role, service, variables). -/
structure HostAttributes where
  os : String
  env : String
  role : String
  srv : String
  vars : String
deriving DecidableEq, Repr

/-- The TXT parsing configuration consumed by the core (`Config.Txt`):
pair separator, key/value separator, group-name separator and the five
attribute key names. -/
structure Config where
  kvSeparator : String
  kvEqualsign : String
  keysSeparator : String
  keyOs : String
  keyEnv : String
  keyRole : String
  keySrv : String
  keyVars : String
deriving DecidableEq, Repr

/-- The default configuration from `config/ansible-dns-inventory.yaml`. -/
def defaultConfig : Config :=
  ⟨";", "=", "_", "OS", "ENV", "ROLE", "SRV", "VARS"⟩

/-! ## Inventory tree nodes -/

/-- An inventory tree node (`Node` in `pkg/inventory/types.go`): group name,
child groups, and the set of hosts directly owned by the group.  The Go
parent back-pointer is represented implicitly: traversals that need
ancestors receive them as an accumulator. -/
inductive Node where
  | mk (name : String) (children : List Node) (hosts : List String)

/-- Group name of a node. -/
def Node.name : Node → String
  | ⟨n, _, _⟩ => n

/-- Children of a node. -/
def Node.children : Node → List Node
  | ⟨_, cs, _⟩ => cs

/-- Hosts directly owned by a node. -/
def Node.hosts : Node → List String
  | ⟨_, _, hs⟩ => hs

/-- `NewTree` from `pkg/inventory/tree.go`: an empty tree whose root is the
Ansible root group `"all"`. -/
def newTree : Node := ⟨"all", [], []⟩

/-- `Node.AddHost`: insert a host into the node's host set (`n.Hosts[host] = true`). -/
def addHostN (host : String) : Node → Node
  | ⟨n, cs, hs⟩ => ⟨n, cs, insertStr host hs⟩

/-- A fresh child node as allocated by `Node.AddChild`. -/
def mkNode (s : String) : Node := ⟨s, [], []⟩

/-- Replace the first child named `s` by the given node (the pointed-to child
mutated in place by the Go code). -/
def replaceNamed (s : String) (v : Node) : List Node → List Node
  | [] => []
  | c :: cs => if c.name = s then v :: cs else c :: replaceNamed s v cs

/-- Walk a path of group names from this node, reproducing a chain of
`Node.AddChild` calls, and apply `Node.AddHost` at the final node.
`AddChild` returns the node itself when the name equals its own name
(self-loop guard), the first existing child on an exact name match,
and otherwise appends a fresh child. -/
def insertPath (host : String) (n : Node) : List String → Node
  | [] => addHostN host n
  | s :: rest =>
    if n.name = s then insertPath host n rest
    else
      match n.children.find? (fun c => c.name = s) with
      | some c => ⟨n.name, replaceNamed s (insertPath host c rest) n.children, n.hosts⟩
      | none => ⟨n.name, n.children ++ [insertPath host (mkNode s) rest], n.hosts⟩

/-! ## `Node.ImportHosts` -/

/-- The service-chain walk of `Node.ImportHosts`: starting from the role
group name, extend the running group name by `sep ++ segment` for each
non-empty segment, except that a segment other than the first is skipped
when the current environment is the synthetic root scope `"all"` while the
record's own `Env` is not `"all"`.  Returns the successive group names. -/
def chainAux (sep env attrEnv : String) : Nat → String → List String → List String
  | _, _, [] => []
  | i, cur, s :: rest =>
    if s.length > 0 ∧ (i = 0 ∨ env ≠ "all" ∨ attrEnv = "all") then
      (cur ++ sep ++ s) :: chainAux sep env attrEnv (i + 1) (cur ++ sep ++ s) rest
    else
      chainAux sep env attrEnv (i + 1) cur rest

/-- The group-name path of the role/service chain for one record under one
environment: environment group, role group, then the service chain. -/
def servicePath (sep env : String) (a : HostAttributes) : List String :=
  env :: (env ++ sep ++ a.role) ::
    chainAux sep env a.env 0 (env ++ sep ++ a.role) (goSplit a.srv sep)

/-- The group-name path of the special host/OS groups for one record under
one environment: `env`, `env_host`, `env_host_<os>`. -/
def hostOsPath (sep env : String) (a : HostAttributes) : List String :=
  [env, env ++ sep ++ "host", env ++ sep ++ "host" ++ sep ++ a.os]

/-- The environment set `{attr.Env, "all"}` of `Node.ImportHosts`, with the
(unspecified) Go map iteration order fixed as: own environment first. -/
def envList (a : HostAttributes) : List String :=
  if a.env = "all" then ["all"] else [a.env, "all"]

/-- The effect of one `(host, attrs)` pair inside the `Node.ImportHosts`
loops: for each environment, place the host at the end of the role/service
chain, then at the end of the host/OS special chain. -/
def insertRecord (sep : String) (t : Node) (host : String) (a : HostAttributes) : Node :=
  (envList a).foldl
    (fun t env => insertPath host (insertPath host t (servicePath sep env a)) (hostOsPath sep env a))
    t

/-- The import loop of `Node.ImportHosts` over a flattened list of
`(hostname, attributes)` pairs (a Go `map[string][]*HostAttributes`). -/
def importPairs (sep : String) (pairs : List (String × HostAttributes)) (t : Node) : Node :=
  pairs.foldl (fun t p => insertRecord sep t p.1 p.2) t

/-! ## `Node.SortChildren` -/

/-- Ordered insertion of a node into a children list, by group name. -/
def insNode (x : Node) : List Node → List Node
  | [] => [x]
  | y :: ys => if strLe x.name y.name then x :: y :: ys else y :: insNode x ys

/-- Insertion sort of a children list by group name (`sort.Slice` with the
comparison `Children[i].Name < Children[j].Name`; group names are distinct
within one parent, so any correct sort produces this result). -/
def sortNodes : List Node → List Node
  | [] => []
  | x :: xs => insNode x (sortNodes xs)

/-- `Node.SortChildren`: recursively sort every node's children by name. -/
def sortChildren : Node → Node
  | ⟨n, cs, hs⟩ => ⟨n, sortNodes (sortChildrenList cs), hs⟩
where
  /-- `SortChildren` applied to every node of a list. -/
  sortChildrenList : List Node → List Node
  | [] => []
  | c :: cs => sortChildren c :: sortChildrenList cs

/-- `Node.ImportHosts` of `pkg/inventory/tree.go`: load all pairs into the
tree, then `SortChildren` (line 80 of the source). -/
def importHosts (sep : String) (pairs : List (String × HostAttributes)) (t : Node) : Node :=
  sortChildren (importPairs sep pairs t)

/-! ## `Node.GetAllHosts` -/

/-- `Node.GetAllHosts`: the set of hosts owned by the node and all of its
descendants (a Go `map[string]bool`, modelled as a sorted union). -/
def allHosts : Node → List String
  | ⟨_, cs, hs⟩ => unionStr hs (allHostsList cs)
where
  /-- Union of `GetAllHosts` over a list of children. -/
  allHostsList : List Node → List String
  | [] => []
  | c :: cs => unionStr (allHosts c) (allHostsList cs)

/-! ## Export maps (Go `map[string]X` model) -/

/-- First-occurrence association-list lookup (a Go map read). -/
def lookupS {α : Type} : List (String × α) → String → Option α
  | [], _ => none
  | p :: ps, k => if p.1 = k then some p.2 else lookupS ps k

/-- Replace-or-append association-list update (a Go map write). -/
def upsertS {α : Type} : List (String × α) → String → α → List (String × α)
  | [], k, v => [(k, v)]
  | p :: ps, k, v => if p.1 = k then (k, v) :: ps else p :: upsertS ps k v

/-- Membership of `x` in the list a map associates to `k` (empty if absent). -/
def memLookup {α : Type} (m : List (String × List α)) (k : String) (x : α) : Prop :=
  x ∈ (lookupS m k).getD []

/-- An Ansible group for the inventory export (`AnsibleGroup`). -/
structure AnsibleGroup where
  children : List String
  hosts : List String
deriving DecidableEq, Repr

/-! ## Exporters -/

/-- `Node.ExportInventory`: pre-order traversal writing, for every node, its
children's names (in tree order) and its sorted host set into the map. -/
def exportInventory (n : Node) (inv : List (String × AnsibleGroup)) :
    List (String × AnsibleGroup) :=
  match n with
  | ⟨nm, cs, hs⟩ =>
    exportInventoryList cs (upsertS inv nm ⟨cs.map Node.name, sortStrings hs⟩)
where
  /-- `ExportInventory` folded over the children. -/
  exportInventoryList : List Node → List (String × AnsibleGroup) → List (String × AnsibleGroup)
  | [], inv => inv
  | c :: cs, inv => exportInventoryList cs (exportInventory c inv)

/-- For one node: merge the node's name and its ancestors' names into the
group list of every host the node owns (the per-host body of
`Node.ExportHosts`, with `collected` being a Go string set). -/
def addHostGroups (names : List String) (m : List (String × List String)) :
    List String → List (String × List String)
  | [] => m
  | h :: hs =>
    addHostGroups names (upsertS m h (unionStr names (sortStrings ((lookupS m h).getD [])))) hs

/-- `Node.ExportHosts`: for every host owned by any node, the sorted set of
that node's name, all its ancestors' names, and previously collected names.
`anc` carries the ancestor names that `GetAncestors` reads off the parent
pointers; that walk stops at the first parent with an empty name
(`if len(n.Parent.Name) > 0`, the root's pseudo-parent being empty-named),
so the accumulator passed to the children of an empty-named node resets
to `[]`. -/
def exportHosts (anc : List String) (n : Node) (m : List (String × List String)) :
    List (String × List String) :=
  match n with
  | ⟨nm, cs, hs⟩ =>
    exportHostsList (if nm = "" then [] else nm :: anc) cs (addHostGroups (nm :: anc) m hs)
where
  /-- `ExportHosts` folded over the children. -/
  exportHostsList : List String → List Node → List (String × List String) →
      List (String × List String)
  | _, [], m => m
  | anc, c :: cs, m => exportHostsList anc cs (exportHosts anc c m)

/-- `Node.ExportGroups`: pre-order traversal writing, for every node, the
sorted list of all hosts transitively under it (`GetAllHosts`). -/
def exportGroups (n : Node) (m : List (String × List String)) :
    List (String × List String) :=
  match n with
  | ⟨nm, cs, _⟩ => exportGroupsList cs (upsertS m nm (sortStrings (allHosts n)))
where
  /-- `ExportGroups` folded over the children. -/
  exportGroupsList : List Node → List (String × List String) → List (String × List String)
  | [], m => m
  | c :: cs, m => exportGroupsList cs (exportGroups c m)

/-! ## Attribute validation (`safeAttr`, tags of `HostAttributes`) -/

/-- The character class `[A-Za-z0-9]` used by `safeAttr`. -/
def isAlnum (c : Char) : Bool :=
  ('A' ≤ c && c ≤ 'Z') || ('a' ≤ c && c ≤ 'z') || ('0' ≤ c && c ≤ '9')

/-- Go `[[:print:]]` (ASCII printable characters). -/
def isPrintable (c : Char) : Bool :=
  ' ' ≤ c && c ≤ '~'

/-- `safeAttr` (validator registered as `safe`): match the whole value
against a character class built from the validation parameter.  The base
class is `[A-Za-z0-9]`; when the configured group-name separator is `"-"`
an underscore is additionally allowed (the deprecated group-name carve-out);
`safe=list` adds the comma, `safe=srv` adds the comma and the separator
characters themselves, and `safe=vars` allows any printable character. -/
def safeAttr (sep : String) (param : String) (s : String) : Bool :=
  match param with
  | "srv" => s.data.all fun c =>
      isAlnum c || (sep = "-" && c = '_') || c = ',' || sep.data.contains c
  | "list" => s.data.all fun c => isAlnum c || (sep = "-" && c = '_') || c = ','
  | "vars" => s.data.all isPrintable
  | _ => s.data.all fun c => isAlnum c || (sep = "-" && c = '_')

/-- The `nonzero` validator of `validator.v2` on strings. -/
def nonzero (s : String) : Bool :=
  s.data.length != 0

/-- `validator.Validate` over the `HostAttributes` tags:
`OS`, `Env`: `nonzero,safe`; `Role`: `nonzero,safe=list`; `Srv`: `safe=srv`;
`Vars`: `safe=vars`. -/
def validateAttrs (sep : String) (a : HostAttributes) : Bool :=
  nonzero a.os && safeAttr sep "" a.os &&
  nonzero a.env && safeAttr sep "" a.env &&
  nonzero a.role && safeAttr sep "list" a.role &&
  safeAttr sep "srv" a.srv &&
  safeAttr sep "vars" a.vars

/-- Acceptance of an OS or Env attribute value: the `nonzero,safe` tag pair. -/
def acceptOsEnv (sep : String) (s : String) : Bool :=
  nonzero s && safeAttr sep "" s

/-! ## `Inventory.ParseAttributes` -/

/-- Assign one `key=value` item to the attribute record under construction
(the `switch kv[0]` of `ParseAttributes`, `pkg/inventory/inventory.go`).
`kv` is `strings.SplitN(item, equalsign, 2)`; when the item contains no
separator, `kv` has a single element and the Go expression `kv[1]` panics
with an index-out-of-range runtime error whenever `kv[0]` matches one of
the configured attribute key names; the panic is modelled as `none`. -/
def assignItem (cfg : Config) (a : HostAttributes) (item : String) : Option HostAttributes :=
  let kv := goSplitN2 item cfg.kvEqualsign
  let k := kv.headD ""
  if k = cfg.keyOs then (kv.get? 1).map fun v => ⟨v, a.env, a.role, a.srv, a.vars⟩
  else if k = cfg.keyEnv then (kv.get? 1).map fun v => ⟨a.os, v, a.role, a.srv, a.vars⟩
  else if k = cfg.keyRole then (kv.get? 1).map fun v => ⟨a.os, a.env, v, a.srv, a.vars⟩
  else if k = cfg.keySrv then (kv.get? 1).map fun v => ⟨a.os, a.env, a.role, v, a.vars⟩
  else if k = cfg.keyVars then (kv.get? 1).map fun v => ⟨a.os, a.env, a.role, a.srv, v⟩
  else some a

/-- Fold `assignItem` over the items, propagating a panic. -/
def assignItems (cfg : Config) : HostAttributes → List String → Option HostAttributes
  | a, [] => some a
  | a, item :: items =>
    match assignItem cfg a item with
    | none => none
    | some a => assignItems cfg a items

/-- `Inventory.ParseAttributes`: split the raw attribute string on the pair
separator, assign each item, then validate.  `none` models a Go runtime
panic (see `assignItem`); `Except.error` models the validation error
returned to the caller. -/
def parseAttributes (cfg : Config) (raw : String) : Option (Except String HostAttributes) :=
  match assignItems cfg ⟨"", "", "", "", ""⟩ (goSplit raw cfg.kvSeparator) with
  | none => none
  | some a =>
    if validateAttrs cfg.keysSeparator a then some (Except.ok a)
    else some (Except.error "attribute validation error")

/-! ## Record expansion and `Inventory.GetHosts` -/

/-- A datasource record (`DatasourceRecord`): a hostname and its raw
attribute string. -/
structure DatasourceRecord where
  hostname : String
  attributes : String
deriving DecidableEq, Repr

/-- The role/service expansion of `Inventory.GetHosts`: one record per
`(role, service)` pair drawn from splitting `Role` and `Srv` on commas. -/
def expandAttrs (a : HostAttributes) : List HostAttributes :=
  (goSplit a.role ",").flatMap fun role =>
    (goSplit a.srv ",").map fun srv => ⟨a.os, a.env, role, srv, a.vars⟩

/-- Append values for a key in a Go `map[string][]V` (`m[k] = append(m[k], vs...)`). -/
def appendS (m : List (String × List HostAttributes)) (k : String)
    (vs : List HostAttributes) : List (String × List HostAttributes) :=
  upsertS m k ((lookupS m k).getD [] ++ vs)

/-- The record-processing loop of `Inventory.GetHosts`: parse every record,
skip the ones whose attributes fail validation, and append the expanded
attribute records under the record's hostname.  `none` models a parse panic. -/
def processRecords (cfg : Config) : List DatasourceRecord →
    List (String × List HostAttributes) → Option (List (String × List HostAttributes))
  | [], m => some m
  | r :: rs, m =>
    match parseAttributes cfg r.attributes with
    | none => none
    | some (Except.error _) => processRecords cfg rs m
    | some (Except.ok a) => processRecords cfg rs (appendS m r.hostname (expandAttrs a))

/-- `Inventory.GetHosts` (`pkg/inventory/inventory.go`, the variant with the
empty-datasource check): fail when the datasource returned no records at
all, otherwise parse, filter and expand. -/
def getHosts (cfg : Config) (records : List DatasourceRecord) :
    Option (Except String (List (String × List HostAttributes))) :=
  if records = [] then some (Except.error "no host records found")
  else (processRecords cfg records []).map Except.ok

/-! ## Order lemmas for `strLe` -/

theorem listCharLe_refl (a : List Char) : listCharLe a a = true := by
  induction a with
  | nil => rfl
  | cons c cs ih => simp [listCharLe, ih]

theorem listCharLe_total (a b : List Char) :
    listCharLe a b = true ∨ listCharLe b a = true := by
  induction a generalizing b with
  | nil => left; rfl
  | cons c cs ih =>
    cases b with
    | nil => right; rfl
    | cons d ds =>
      simp only [listCharLe]
      rcases Nat.lt_trichotomy c.val.toNat d.val.toNat with h | h | h
      · left; simp [h]
      · rcases ih ds with h2 | h2
        · left; simp [h, h2]
        · right; simp [h, h2]
      · right; simp [h, Nat.lt_asymm h]

theorem charEqOfToNatEq {a b : Char} (h : a.val.toNat = b.val.toNat) : a = b :=
  Char.ext (UInt32.ext h)

theorem listCharLe_antisymm {a b : List Char} (h1 : listCharLe a b = true)
    (h2 : listCharLe b a = true) : a = b := by
  induction a generalizing b with
  | nil => cases b with
    | nil => rfl
    | cons d ds => simp [listCharLe] at h2
  | cons c cs ih =>
    cases b with
    | nil => simp [listCharLe] at h1
    | cons d ds =>
      simp only [listCharLe] at h1 h2
      rcases Nat.lt_trichotomy c.val.toNat d.val.toNat with h | h | h
      · simp [h, Nat.lt_asymm h] at h2
      · have hc : c = d := charEqOfToNatEq h
        subst hc
        simp only [Nat.lt_irrefl, if_false] at h1 h2
        rw [ih h1 h2]
      · simp [h, Nat.lt_asymm h] at h1

theorem listCharLe_trans {a b c : List Char} (h1 : listCharLe a b = true)
    (h2 : listCharLe b c = true) : listCharLe a c = true := by
  induction a generalizing b c with
  | nil => rfl
  | cons x xs ih =>
    cases b with
    | nil => simp [listCharLe] at h1
    | cons y ys =>
      cases c with
      | nil => simp [listCharLe] at h2
      | cons z zs =>
        simp only [listCharLe] at h1 h2 ⊢
        rcases Nat.lt_trichotomy x.val.toNat y.val.toNat with hxy | hxy | hxy <;>
          rcases Nat.lt_trichotomy y.val.toNat z.val.toNat with hyz | hyz | hyz <;>
          simp [hxy, hyz, Nat.lt_asymm, Nat.lt_irrefl] at h1 h2 ⊢ <;>
          first
            | (exact Or.inl (by omega))
            | (try simp [show ¬ x.val.toNat < z.val.toNat by omega,
                show ¬ z.val.toNat < x.val.toNat by omega] at h1 h2 ⊢) <;>
              first
                | omega
                | exact ih h1 h2
                | (subst_vars; exact ih h1 h2)

theorem strLe_refl (a : String) : strLe a a = true := listCharLe_refl a.data

theorem strLe_total (a b : String) : strLe a b = true ∨ strLe b a = true :=
  listCharLe_total a.data b.data

theorem strLe_antisymm {a b : String} (h1 : strLe a b = true)
    (h2 : strLe b a = true) : a = b := by
  cases a; cases b
  exact congrArg String.mk (listCharLe_antisymm h1 h2)

theorem strLe_trans {a b c : String} (h1 : strLe a b = true)
    (h2 : strLe b c = true) : strLe a c = true :=
  listCharLe_trans h1 h2

/-! ## Canonical path insertion

`cInsert` is `insertPath` on trees whose children lists are kept sorted:
the only difference is that a freshly created child is placed at its sorted
position instead of being appended.  `sortChildren` exchanges the two
(`sortChildren_insertPath` below), which lets order-independence and
idempotence of the import be proved on the canonical form. -/

/-- Path insertion keeping children sorted by name. -/
def cInsert (host : String) (n : Node) : List String → Node
  | [] => addHostN host n
  | s :: rest =>
    if n.name = s then cInsert host n rest
    else
      match n.children.find? (fun c => c.name = s) with
      | some c => ⟨n.name, replaceNamed s (cInsert host c rest) n.children, n.hosts⟩
      | none => ⟨n.name, insNode (cInsert host (mkNode s) rest) n.children, n.hosts⟩

/-! ## Name-preservation and list helper lemmas -/

theorem name_addHostN (h : String) (n : Node) : (addHostN h n).name = n.name := by
  cases n; rfl

theorem name_insertPath (h : String) (p : List String) (n : Node) :
    (insertPath h n p).name = n.name := by
  induction p generalizing n with
  | nil => exact name_addHostN h n
  | cons s rest ih =>
    rw [insertPath]
    by_cases hn : n.name = s
    · rw [if_pos hn]; exact ih n
    · rw [if_neg hn]
      cases n.children.find? (fun c => c.name = s) <;> rfl

theorem name_cInsert (h : String) (p : List String) (n : Node) :
    (cInsert h n p).name = n.name := by
  induction p generalizing n with
  | nil => exact name_addHostN h n
  | cons s rest ih =>
    by_cases hn : n.name = s
    · rw [cInsert, if_pos hn]; exact ih n
    · rw [cInsert, if_neg hn]
      cases n.children.find? (fun c => c.name = s) <;> rfl

theorem name_sortChildren (n : Node) : (sortChildren n).name = n.name := by
  cases n; rfl

theorem sortChildrenList_eq_map (cs : List Node) :
    sortChildren.sortChildrenList cs = cs.map sortChildren := by
  induction cs with
  | nil => rfl
  | cons c cs ih => simp [sortChildren.sortChildrenList, ih]

theorem sortChildren_mk (nm : String) (cs : List Node) (hs : List String) :
    sortChildren ⟨nm, cs, hs⟩ = ⟨nm, sortNodes (cs.map sortChildren), hs⟩ := by
  rw [sortChildren, sortChildrenList_eq_map]

/-- `find?` by name commutes with mapping a name-preserving function. -/
theorem find?_map_namePreserving (s : String) (f : Node → Node)
    (hf : ∀ c, (f c).name = c.name) (l : List Node) :
    (l.map f).find? (fun c => c.name = s) =
      (l.find? (fun c => c.name = s)).map f := by
  induction l with
  | nil => rfl
  | cons c cs ih =>
    simp only [List.map_cons, List.find?]
    by_cases hc : c.name = s
    · simp [hf c, hc]
    · simp [hf c, hc, ih]

/-- Inserting a node with a different name does not change `find?` by name. -/
theorem find?_insNode_ne (s : String) (x : Node) (hx : x.name ≠ s) (l : List Node) :
    (insNode x l).find? (fun c => c.name = s) = l.find? (fun c => c.name = s) := by
  induction l with
  | nil => simp [insNode, List.find?, hx]
  | cons y ys ih =>
    rw [insNode]
    by_cases hle : strLe x.name y.name = true
    · simp [if_pos hle, List.find?, hx]
    · simp only [if_neg hle, List.find?]
      by_cases hy : y.name = s
      · simp [hy]
      · simp [hy, ih]

/-- `find?` by name finds a freshly inserted node that carries the name:
insertion is stable, so no equal-named element can come before it. -/
theorem find?_insNode_self (s : String) (x : Node) (hx : x.name = s) (l : List Node) :
    (insNode x l).find? (fun c => c.name = s) = some x := by
  induction l with
  | nil => simp [insNode, List.find?, hx]
  | cons y ys ih =>
    rw [insNode]
    by_cases hle : strLe x.name y.name = true
    · rw [if_pos hle]
      simp [List.find?, hx]
    · rw [if_neg hle]
      have hy : y.name ≠ s := by
        intro hcontra
        refine hle ?_
        rw [hx, hcontra]
        exact strLe_refl s
      simp [List.find?, hy, ih]

/-- `find?` by name is invariant under `sortNodes` (stability of the sort). -/
theorem find?_sortNodes (s : String) (l : List Node) :
    (sortNodes l).find? (fun c => c.name = s) = l.find? (fun c => c.name = s) := by
  induction l with
  | nil => rfl
  | cons c cs ih =>
    rw [sortNodes]
    by_cases hc : c.name = s
    · rw [find?_insNode_self s c hc (sortNodes cs)]
      simp [List.find?, hc]
    · rw [find?_insNode_ne s c hc (sortNodes cs), ih]
      simp [List.find?, hc]

/-- Mapping a name-preserving function commutes with `replaceNamed`. -/
theorem map_replaceNamed (s : String) (v : Node) (f : Node → Node)
    (hf : ∀ c, (f c).name = c.name) (l : List Node) :
    (replaceNamed s v l).map f = replaceNamed s (f v) (l.map f) := by
  induction l with
  | nil => rfl
  | cons c cs ih =>
    rw [replaceNamed]
    by_cases hc : c.name = s
    · simp [replaceNamed, hf c, hc]
    · simp [replaceNamed, hf c, hc, ih]

/-- Replacing the name just inserted rewrites the inserted node in place. -/
theorem replaceNamed_insNode_self (s : String) (x v : Node) (hx : x.name = s)
    (hv : v.name = s) (l : List Node) :
    replaceNamed s v (insNode x l) = insNode v l := by
  induction l with
  | nil => simp [insNode, replaceNamed, hx]
  | cons y ys ih =>
    rw [insNode]
    by_cases hle : strLe x.name y.name = true
    · rw [if_pos hle, replaceNamed, if_pos hx, insNode,
        if_pos (show strLe v.name y.name = true from (hv.trans hx.symm) ▸ hle)]
    · rw [if_neg hle, replaceNamed]
      have hy : y.name ≠ s := by
        intro hcontra
        refine hle ?_
        rw [hx, hcontra]
        exact strLe_refl s
      rw [if_neg hy, ih, insNode,
        if_neg (show ¬ strLe v.name y.name = true from (hv.trans hx.symm) ▸ hle)]

/-- Replacement at a name different from an inserted node's name commutes
with the insertion. -/
theorem replaceNamed_insNode_ne (s : String) (x v : Node) (hx : x.name ≠ s)
    (hv : v.name = s) (l : List Node) :
    replaceNamed s v (insNode x l) = insNode x (replaceNamed s v l) := by
  induction l with
  | nil => simp [insNode, replaceNamed, hx]
  | cons y ys ih =>
    rw [insNode]
    by_cases hle : strLe x.name y.name = true
    · rw [if_pos hle, replaceNamed, if_neg hx, replaceNamed]
      by_cases hy : y.name = s
      · rw [if_pos hy, insNode,
          if_pos (show strLe x.name v.name = true from (hv.trans hy.symm) ▸ hle)]
      · rw [if_neg hy, insNode, if_pos hle]
    · rw [if_neg hle, replaceNamed]
      by_cases hy : y.name = s
      · rw [if_pos hy, replaceNamed, if_pos hy, insNode,
          if_neg (show ¬ strLe x.name v.name = true from (hv.trans hy.symm) ▸ hle)]
      · rw [if_neg hy, ih, replaceNamed, if_neg hy, insNode, if_neg hle]

/-- `sortNodes` commutes with an in-place replacement that keeps the name. -/
theorem sortNodes_replaceNamed (s : String) (v : Node) (hv : v.name = s)
    (l : List Node) :
    sortNodes (replaceNamed s v l) = replaceNamed s v (sortNodes l) := by
  induction l with
  | nil => rfl
  | cons c cs ih =>
    rw [replaceNamed]
    by_cases hc : c.name = s
    · rw [if_pos hc, sortNodes, sortNodes, replaceNamed_insNode_self s c v hc hv]
    · rw [if_neg hc, sortNodes, sortNodes, ih, replaceNamed_insNode_ne s c v hc hv]

/-- Ordered insertions of distinctly named nodes commute. -/
theorem insNode_comm (x y : Node) (hxy : x.name ≠ y.name) (l : List Node) :
    insNode x (insNode y l) = insNode y (insNode x l) := by
  have hA : ¬ (strLe x.name y.name = true ∧ strLe y.name x.name = true) := by
    rintro ⟨h1, h2⟩
    exact hxy (strLe_antisymm h1 h2)
  induction l with
  | nil =>
    rcases strLe_total x.name y.name with h | h
    · have h2 : ¬ strLe y.name x.name = true := fun hc => hA ⟨h, hc⟩
      simp [insNode, h, h2]
    · have h2 : ¬ strLe x.name y.name = true := fun hc => hA ⟨hc, h⟩
      simp [insNode, h, h2]
  | cons z zs ih =>
    rcases strLe_total x.name y.name with hxyT | hxyT
    · have hB : ¬ strLe y.name x.name = true := fun hc => hA ⟨hxyT, hc⟩
      by_cases hD : strLe y.name z.name = true
      · have hC : strLe x.name z.name = true := strLe_trans hxyT hD
        simp [insNode, hB, hC, hD, hxyT]
      · by_cases hC : strLe x.name z.name = true
        · simp [insNode, hB, hC, hD, hxyT]
        · simp [insNode, hB, hC, hD, hxyT, ih]
    · have hB : ¬ strLe x.name y.name = true := fun hc => hA ⟨hc, hxyT⟩
      by_cases hC : strLe x.name z.name = true
      · have hD : strLe y.name z.name = true := strLe_trans hxyT hC
        simp [insNode, hB, hC, hD, hxyT]
      · by_cases hD : strLe y.name z.name = true
        · simp [insNode, hB, hC, hD, hxyT]
        · simp [insNode, hB, hC, hD, hxyT, ih]

/-- Sorting an appended fresh node (whose name is not already present) is an
ordered insertion into the sorted list. -/
theorem sortNodes_append_single (x : Node) (l : List Node)
    (hl : ∀ y ∈ l, y.name ≠ x.name) :
    sortNodes (l ++ [x]) = insNode x (sortNodes l) := by
  induction l with
  | nil => rfl
  | cons c cs ih =>
    rw [List.cons_append, sortNodes, sortNodes,
      ih (fun y hy => hl y (by simp [hy])),
      insNode_comm c x (hl c (by simp))]

theorem sortChildren_mkNode (s : String) : sortChildren (mkNode s) = mkNode s := rfl

/-- Sorting after a raw `insertPath` equals the canonical insertion into the
sorted tree: one step of the canonicalization of the import. -/
theorem sortChildren_insertPath (h : String) (p : List String) (n : Node) :
    sortChildren (insertPath h n p) = cInsert h (sortChildren n) p := by
  induction p generalizing n with
  | nil =>
    cases n with
    | mk nm cs hs => rw [insertPath, cInsert, addHostN, sortChildren_mk, sortChildren_mk, addHostN]
  | cons s rest ih =>
    cases n with
    | mk nm cs hs =>
      rw [insertPath, cInsert]
      have hname : Node.name ⟨nm, cs, hs⟩ = nm := rfl
      have hsortname : (sortChildren ⟨nm, cs, hs⟩).name = nm := name_sortChildren _
      by_cases hn : nm = s
      · rw [hname, if_pos hn, show (sortChildren ⟨nm, cs, hs⟩).name = nm from hsortname,
          if_pos hn]
        exact ih _
      · rw [hname, if_neg hn, hsortname, if_neg hn]
        have hchildren : (sortChildren ⟨nm, cs, hs⟩).children = sortNodes (cs.map sortChildren) := by
          simp [sortChildren_mk, Node.children]
        rw [show Node.children ⟨nm, cs, hs⟩ = cs from rfl, hchildren,
          find?_sortNodes, find?_map_namePreserving s sortChildren name_sortChildren]
        cases hfind : cs.find? (fun c => c.name = s) with
        | some c =>
          have hcname : c.name = s := by
            have := List.find?_some hfind
            simpa using this
          simp only [Option.map]
          rw [sortChildren_mk]
          rw [map_replaceNamed s (insertPath h c rest) sortChildren name_sortChildren cs]
          rw [ih c]
          rw [sortNodes_replaceNamed s (cInsert h (sortChildren c) rest)
            (by rw [name_cInsert, name_sortChildren, hcname]) (cs.map sortChildren)]
          rw [sortChildren_mk]
          rfl
        | none =>
          simp only [Option.map]
          rw [sortChildren_mk]
          rw [List.map_append, List.map_singleton, ih (mkNode s), sortChildren_mkNode]
          have hnot : ∀ y ∈ cs.map sortChildren, y.name ≠ (cInsert h (mkNode s) rest).name := by
            intro y hy
            rcases List.mem_map.mp hy with ⟨c, hc, rfl⟩
            rw [name_cInsert, name_sortChildren]
            have := List.find?_eq_none.mp hfind c hc
            simpa [mkNode, Node.name] using fun hcontra => this (by simpa using hcontra)
          rw [sortNodes_append_single _ _ hnot, sortChildren_mk]
          rfl

/-! ## Commutation lemmas -/

theorem mem_insStr (x h : String) (l : List String) :
    x ∈ insStr h l ↔ x = h ∨ x ∈ l := by
  induction l with
  | nil => simp [insStr]
  | cons y ys ih =>
    rw [insStr]
    by_cases hle : strLe h y = true
    · simp [if_pos hle]
    · simp only [if_neg hle, List.mem_cons, ih]
      tauto

theorem insStr_comm (a b : String) (l : List String) :
    insStr a (insStr b l) = insStr b (insStr a l) := by
  by_cases hab : a = b
  · rw [hab]
  have hA : ¬ (strLe a b = true ∧ strLe b a = true) := by
    rintro ⟨h1, h2⟩
    exact hab (strLe_antisymm h1 h2)
  induction l with
  | nil =>
    rcases strLe_total a b with h | h
    · have h2 : ¬ strLe b a = true := fun hc => hA ⟨h, hc⟩
      simp [insStr, h, h2]
    · have h2 : ¬ strLe a b = true := fun hc => hA ⟨hc, h⟩
      simp [insStr, h, h2]
  | cons z zs ih =>
    rcases strLe_total a b with habT | habT
    · have hB : ¬ strLe b a = true := fun hc => hA ⟨habT, hc⟩
      by_cases hD : strLe b z = true
      · have hC : strLe a z = true := strLe_trans habT hD
        simp [insStr, hB, hC, hD, habT]
      · by_cases hC : strLe a z = true
        · simp [insStr, hB, hC, hD, habT]
        · simp [insStr, hB, hC, hD, habT, ih]
    · have hB : ¬ strLe a b = true := fun hc => hA ⟨hc, habT⟩
      by_cases hC : strLe a z = true
      · have hD : strLe b z = true := strLe_trans habT hC
        simp [insStr, hB, hC, hD, habT]
      · by_cases hD : strLe b z = true
        · simp [insStr, hB, hC, hD, habT]
        · simp [insStr, hB, hC, hD, habT, ih]

theorem insertStr_comm (a b : String) (l : List String) :
    insertStr a (insertStr b l) = insertStr b (insertStr a l) := by
  by_cases hab : a = b
  · rw [hab]
  by_cases ha : a ∈ l <;> by_cases hb : b ∈ l
  · simp [insertStr, ha, hb]
  · have h1 : a ∈ insStr b l := (mem_insStr a b l).mpr (Or.inr ha)
    simp [insertStr, ha, hb, h1]
  · have h1 : b ∈ insStr a l := (mem_insStr b a l).mpr (Or.inr hb)
    simp [insertStr, ha, hb, h1]
  · have h1 : ¬ a ∈ insStr b l := fun hmem => by
      rcases (mem_insStr a b l).mp hmem with h | h
      exacts [hab h, ha h]
    have h2 : ¬ b ∈ insStr a l := fun hmem => by
      rcases (mem_insStr b a l).mp hmem with h | h
      exacts [hab h.symm, hb h]
    simp [insertStr, ha, hb, h1, h2, insStr_comm]

/-- Replacement rewrites what `find?` sees at the replaced name. -/
theorem find?_replaceNamed_self (s : String) (v : Node) (hv : v.name = s) (l : List Node) :
    (replaceNamed s v l).find? (fun c => c.name = s) =
      (l.find? (fun c => c.name = s)).map fun _ => v := by
  induction l with
  | nil => rfl
  | cons c cs ih =>
    rw [replaceNamed]
    by_cases hc : c.name = s
    · simp [List.find?, hc, hv]
    · simp [List.find?, hc, ih]

/-- Replacement at one name leaves `find?` at a different name unchanged. -/
theorem find?_replaceNamed_ne (s u : String) (hsu : s ≠ u) (v : Node)
    (hv : v.name = u) (l : List Node) :
    (replaceNamed u v l).find? (fun c => c.name = s) = l.find? (fun c => c.name = s) := by
  induction l with
  | nil => rfl
  | cons c cs ih =>
    rw [replaceNamed]
    by_cases hc : c.name = u
    · have hvs : v.name ≠ s := fun hcontra => hsu (by rw [← hcontra, hv])
      have hcs : c.name ≠ s := fun hcontra => hsu (by rw [← hcontra, hc])
      simp [List.find?, hc, hvs, hcs, Ne.symm hsu]
    · by_cases hcs : c.name = s
      · simp [List.find?, hc, hcs, hsu]
      · simp [List.find?, hc, hcs, ih]

/-- Two replacements at the same name collapse to the outer one. -/
theorem replaceNamed_replaceNamed (s : String) (v w : Node) (hv : v.name = s) (l : List Node) :
    replaceNamed s w (replaceNamed s v l) = replaceNamed s w l := by
  induction l with
  | nil => rfl
  | cons c cs ih =>
    rw [replaceNamed]
    by_cases hc : c.name = s
    · simp [replaceNamed, hc, hv]
    · simp [replaceNamed, hc, ih]

/-- Replacements at distinct names commute. -/
theorem replaceNamed_comm (s u : String) (hsu : s ≠ u) (v w : Node)
    (hv : v.name = s) (hw : w.name = u) (l : List Node) :
    replaceNamed s v (replaceNamed u w l) = replaceNamed u w (replaceNamed s v l) := by
  induction l with
  | nil => rfl
  | cons c cs ih =>
    by_cases hc : c.name = u
    · have hcs : c.name ≠ s := fun hcontra => hsu (by rw [← hcontra, hc])
      have hws : w.name ≠ s := fun hcontra => hsu (by rw [← hcontra, hw])
      simp [replaceNamed, hc, hcs, hws, Ne.symm hsu]
    · by_cases hcs : c.name = s
      · have hvu : v.name ≠ u := fun hcontra => hsu (by rw [← hv, hcontra])
        simp [replaceNamed, hc, hcs, hvu, hsu]
      · simp [replaceNamed, hc, hcs, ih]

/-! ## Commutativity of canonical insertion -/

theorem cInsert_cons_self (h : String) (n : Node) (s : String) (rest : List String)
    (hn : n.name = s) : cInsert h n (s :: rest) = cInsert h n rest := by
  rw [cInsert, if_pos hn]

theorem cInsert_cons_found (h : String) (n : Node) (s : String) (rest : List String)
    (c : Node) (hn : n.name ≠ s) (hf : n.children.find? (fun c => c.name = s) = some c) :
    cInsert h n (s :: rest) =
      ⟨n.name, replaceNamed s (cInsert h c rest) n.children, n.hosts⟩ := by
  rw [cInsert, if_neg hn, hf]

theorem cInsert_cons_new (h : String) (n : Node) (s : String) (rest : List String)
    (hn : n.name ≠ s) (hf : n.children.find? (fun c => c.name = s) = none) :
    cInsert h n (s :: rest) =
      ⟨n.name, insNode (cInsert h (mkNode s) rest) n.children, n.hosts⟩ := by
  rw [cInsert, if_neg hn, hf]

theorem addHostN_cInsert_comm (h1 h2 : String) (q : List String) (n : Node) :
    addHostN h1 (cInsert h2 n q) = cInsert h2 (addHostN h1 n) q := by
  induction q generalizing n with
  | nil =>
    cases n with
    | mk nm cs hs => simp [cInsert, addHostN, insertStr_comm]
  | cons s rest ih =>
    cases n with
    | mk nm cs hs =>
      by_cases hn : nm = s
      · rw [cInsert_cons_self h2 ⟨nm, cs, hs⟩ s rest hn,
          cInsert_cons_self h2 (addHostN h1 ⟨nm, cs, hs⟩) s rest (by simpa [addHostN, Node.name]),
          ih]
      · cases hfind : cs.find? (fun c => c.name = s) with
        | some c =>
          rw [cInsert_cons_found h2 ⟨nm, cs, hs⟩ s rest c hn hfind,
            cInsert_cons_found h2 (addHostN h1 ⟨nm, cs, hs⟩) s rest c
              (by simpa [addHostN, Node.name]) (by simpa [addHostN, Node.children] using hfind)]
          simp [addHostN, Node.name, Node.children, Node.hosts]
        | none =>
          rw [cInsert_cons_new h2 ⟨nm, cs, hs⟩ s rest hn (by simpa [Node.children] using hfind),
            cInsert_cons_new h2 (addHostN h1 ⟨nm, cs, hs⟩) s rest
              (by simpa [addHostN, Node.name]) (by simpa [addHostN, Node.children] using hfind)]
          simp [addHostN, Node.name, Node.children, Node.hosts]

theorem cInsert_cons_self_mk (h nm : String) (cs : List Node) (hs : List String)
    (s : String) (rest : List String) (hn : nm = s) :
    cInsert h ⟨nm, cs, hs⟩ (s :: rest) = cInsert h ⟨nm, cs, hs⟩ rest :=
  cInsert_cons_self h ⟨nm, cs, hs⟩ s rest hn

theorem cInsert_cons_found_mk (h nm : String) (cs : List Node) (hs : List String)
    (s : String) (rest : List String) (c : Node) (hn : nm ≠ s)
    (hf : cs.find? (fun c => c.name = s) = some c) :
    cInsert h ⟨nm, cs, hs⟩ (s :: rest) = ⟨nm, replaceNamed s (cInsert h c rest) cs, hs⟩ :=
  cInsert_cons_found h ⟨nm, cs, hs⟩ s rest c hn hf

theorem cInsert_cons_new_mk (h nm : String) (cs : List Node) (hs : List String)
    (s : String) (rest : List String) (hn : nm ≠ s)
    (hf : cs.find? (fun c => c.name = s) = none) :
    cInsert h ⟨nm, cs, hs⟩ (s :: rest) = ⟨nm, insNode (cInsert h (mkNode s) rest) cs, hs⟩ :=
  cInsert_cons_new h ⟨nm, cs, hs⟩ s rest hn hf

/-- Canonical path insertions commute (strong induction on total path length). -/
theorem cInsert_comm_aux (k : Nat) : ∀ (p q : List String) (h1 h2 : String) (n : Node),
    p.length + q.length ≤ k →
    cInsert h1 (cInsert h2 n q) p = cInsert h2 (cInsert h1 n p) q := by
  induction k with
  | zero =>
    intro p q h1 h2 n hle
    have hp : p = [] := List.eq_nil_of_length_eq_zero (by omega)
    have hq : q = [] := List.eq_nil_of_length_eq_zero (by omega)
    subst hp; subst hq
    cases n with
    | mk nm cs hs => simp [cInsert, addHostN, insertStr_comm]
  | succ k ih =>
    intro p q h1 h2 n hle
    cases p with
    | nil => exact addHostN_cInsert_comm h1 h2 q n
    | cons s r =>
      cases q with
      | nil => exact (addHostN_cInsert_comm h2 h1 (s :: r) n).symm
      | cons u v =>
        cases n with
        | mk nm cs hs =>
          by_cases hns : nm = s
          · rw [cInsert_cons_self h1 (cInsert h2 ⟨nm, cs, hs⟩ (u :: v)) s r
                (by rw [name_cInsert]; exact hns),
              cInsert_cons_self h1 ⟨nm, cs, hs⟩ s r hns]
            refine ih r (u :: v) h1 h2 ⟨nm, cs, hs⟩ ?_
            simp only [List.length_cons] at hle ⊢
            omega
          · by_cases hnu : nm = u
            · rw [cInsert_cons_self h2 ⟨nm, cs, hs⟩ u v hnu,
                cInsert_cons_self h2 (cInsert h1 ⟨nm, cs, hs⟩ (s :: r)) u v
                  (by rw [name_cInsert]; exact hnu)]
              refine ih (s :: r) v h1 h2 ⟨nm, cs, hs⟩ ?_
              simp only [List.length_cons] at hle ⊢
              omega
            · by_cases hsu : s = u
              · subst hsu
                cases hfind : cs.find? (fun c => c.name = s) with
                | some c =>
                  have hcname : c.name = s := by simpa using List.find?_some hfind
                  rw [cInsert_cons_found_mk h2 nm cs hs s v c hns hfind]
                  have hf2 : (replaceNamed s (cInsert h2 c v) cs).find?
                      (fun x => x.name = s) = some (cInsert h2 c v) := by
                    rw [find?_replaceNamed_self s _ (by rw [name_cInsert]; exact hcname), hfind]
                    rfl
                  rw [cInsert_cons_found_mk h1 nm (replaceNamed s (cInsert h2 c v) cs) hs s r
                    (cInsert h2 c v) hns hf2]
                  rw [cInsert_cons_found_mk h1 nm cs hs s r c hns hfind]
                  have hf3 : (replaceNamed s (cInsert h1 c r) cs).find?
                      (fun x => x.name = s) = some (cInsert h1 c r) := by
                    rw [find?_replaceNamed_self s _ (by rw [name_cInsert]; exact hcname), hfind]
                    rfl
                  rw [cInsert_cons_found_mk h2 nm (replaceNamed s (cInsert h1 c r) cs) hs s v
                    (cInsert h1 c r) hns hf3]
                  rw [replaceNamed_replaceNamed s _ _ (by rw [name_cInsert]; exact hcname),
                    replaceNamed_replaceNamed s _ _ (by rw [name_cInsert]; exact hcname)]
                  rw [ih r v h1 h2 c (by simp only [List.length_cons] at hle ⊢; omega)]
                | none =>
                  rw [cInsert_cons_new_mk h2 nm cs hs s v hns hfind]
                  have hf2 : (insNode (cInsert h2 (mkNode s) v) cs).find?
                      (fun x => x.name = s) = some (cInsert h2 (mkNode s) v) :=
                    find?_insNode_self s (cInsert h2 (mkNode s) v)
                      (by rw [name_cInsert]; rfl) cs
                  rw [cInsert_cons_found_mk h1 nm (insNode (cInsert h2 (mkNode s) v) cs) hs s r _
                    hns hf2]
                  rw [cInsert_cons_new_mk h1 nm cs hs s r hns hfind]
                  have hf3 : (insNode (cInsert h1 (mkNode s) r) cs).find?
                      (fun x => x.name = s) = some (cInsert h1 (mkNode s) r) :=
                    find?_insNode_self s (cInsert h1 (mkNode s) r)
                      (by rw [name_cInsert]; rfl) cs
                  rw [cInsert_cons_found_mk h2 nm (insNode (cInsert h1 (mkNode s) r) cs) hs s v _
                    hns hf3]
                  rw [replaceNamed_insNode_self s (cInsert h2 (mkNode s) v)
                      (cInsert h1 (cInsert h2 (mkNode s) v) r) (by rw [name_cInsert]; rfl)
                      (by rw [name_cInsert, name_cInsert]; rfl) cs,
                    replaceNamed_insNode_self s (cInsert h1 (mkNode s) r)
                      (cInsert h2 (cInsert h1 (mkNode s) r) v) (by rw [name_cInsert]; rfl)
                      (by rw [name_cInsert, name_cInsert]; rfl) cs]
                  rw [ih r v h1 h2 (mkNode s) (by simp only [List.length_cons] at hle ⊢; omega)]
              · cases hfs : cs.find? (fun c => c.name = s) with
                | some c =>
                  have hcname : c.name = s := by simpa using List.find?_some hfs
                  cases hfu : cs.find? (fun c => c.name = u) with
                  | some d =>
                    have hdname : d.name = u := by simpa using List.find?_some hfu
                    rw [cInsert_cons_found_mk h2 nm cs hs u v d hnu hfu]
                    have hf2 : (replaceNamed u (cInsert h2 d v) cs).find?
                        (fun x => x.name = s) = some c := by
                      rw [find?_replaceNamed_ne s u hsu _
                        (by rw [name_cInsert]; exact hdname), hfs]
                    rw [cInsert_cons_found_mk h1 nm (replaceNamed u (cInsert h2 d v) cs) hs s r c
                      hns hf2]
                    rw [cInsert_cons_found_mk h1 nm cs hs s r c hns hfs]
                    have hf3 : (replaceNamed s (cInsert h1 c r) cs).find?
                        (fun x => x.name = u) = some d := by
                      rw [find?_replaceNamed_ne u s (Ne.symm hsu) _
                        (by rw [name_cInsert]; exact hcname), hfu]
                    rw [cInsert_cons_found_mk h2 nm (replaceNamed s (cInsert h1 c r) cs) hs u v d
                      hnu hf3]
                    rw [replaceNamed_comm s u hsu _ _ (by rw [name_cInsert]; exact hcname)
                      (by rw [name_cInsert]; exact hdname) cs]
                  | none =>
                    rw [cInsert_cons_new_mk h2 nm cs hs u v hnu hfu]
                    have hf2 : (insNode (cInsert h2 (mkNode u) v) cs).find?
                        (fun x => x.name = s) = some c := by
                      rw [find?_insNode_ne s _
                        (by rw [name_cInsert]; simpa [mkNode, Node.name] using Ne.symm hsu) cs,
                        hfs]
                    rw [cInsert_cons_found_mk h1 nm (insNode (cInsert h2 (mkNode u) v) cs) hs s r c
                      hns hf2]
                    rw [cInsert_cons_found_mk h1 nm cs hs s r c hns hfs]
                    have hf3 : (replaceNamed s (cInsert h1 c r) cs).find?
                        (fun x => x.name = u) = none := by
                      rw [find?_replaceNamed_ne u s (Ne.symm hsu) _
                        (by rw [name_cInsert]; exact hcname), hfu]
                    rw [cInsert_cons_new_mk h2 nm (replaceNamed s (cInsert h1 c r) cs) hs u v
                      hnu hf3]
                    rw [replaceNamed_insNode_ne s _ _
                      (by rw [name_cInsert]; simpa [mkNode, Node.name] using Ne.symm hsu)
                      (by rw [name_cInsert]; exact hcname) cs]
                | none =>
                  cases hfu : cs.find? (fun c => c.name = u) with
                  | some d =>
                    have hdname : d.name = u := by simpa using List.find?_some hfu
                    rw [cInsert_cons_found_mk h2 nm cs hs u v d hnu hfu]
                    have hf2 : (replaceNamed u (cInsert h2 d v) cs).find?
                        (fun x => x.name = s) = none := by
                      rw [find?_replaceNamed_ne s u hsu _
                        (by rw [name_cInsert]; exact hdname), hfs]
                    rw [cInsert_cons_new_mk h1 nm (replaceNamed u (cInsert h2 d v) cs) hs s r
                      hns hf2]
                    rw [cInsert_cons_new_mk h1 nm cs hs s r hns hfs]
                    have hf3 : (insNode (cInsert h1 (mkNode s) r) cs).find?
                        (fun x => x.name = u) = some d := by
                      rw [find?_insNode_ne u _
                        (by rw [name_cInsert]; simpa [mkNode, Node.name] using hsu) cs, hfu]
                    rw [cInsert_cons_found_mk h2 nm (insNode (cInsert h1 (mkNode s) r) cs) hs u v d
                      hnu hf3]
                    rw [replaceNamed_insNode_ne u _ _
                      (by rw [name_cInsert]; simpa [mkNode, Node.name] using hsu)
                      (by rw [name_cInsert]; exact hdname) cs]
                  | none =>
                    rw [cInsert_cons_new_mk h2 nm cs hs u v hnu hfu]
                    have hf2 : (insNode (cInsert h2 (mkNode u) v) cs).find?
                        (fun x => x.name = s) = none := by
                      rw [find?_insNode_ne s _
                        (by rw [name_cInsert]; simpa [mkNode, Node.name] using Ne.symm hsu) cs,
                        hfs]
                    rw [cInsert_cons_new_mk h1 nm (insNode (cInsert h2 (mkNode u) v) cs) hs s r
                      hns hf2]
                    rw [cInsert_cons_new_mk h1 nm cs hs s r hns hfs]
                    have hf3 : (insNode (cInsert h1 (mkNode s) r) cs).find?
                        (fun x => x.name = u) = none := by
                      rw [find?_insNode_ne u _
                        (by rw [name_cInsert]; simpa [mkNode, Node.name] using hsu) cs, hfu]
                    rw [cInsert_cons_new_mk h2 nm (insNode (cInsert h1 (mkNode s) r) cs) hs u v
                      hnu hf3]
                    rw [insNode_comm _ _ (by
                      rw [name_cInsert, name_cInsert]
                      simpa [mkNode, Node.name] using hsu) cs]

theorem cInsert_comm (h1 h2 : String) (p q : List String) (n : Node) :
    cInsert h1 (cInsert h2 n q) p = cInsert h2 (cInsert h1 n p) q :=
  cInsert_comm_aux (p.length + q.length) p q h1 h2 n (Nat.le_refl _)

/-! ## Canonicalization of the import -/

/-- `insertRecord` on the canonical (children-sorted) representation. -/
def cInsertRecord (sep : String) (t : Node) (host : String) (a : HostAttributes) : Node :=
  (envList a).foldl
    (fun t env => cInsert host (cInsert host t (servicePath sep env a)) (hostOsPath sep env a))
    t

/-- `importPairs` on the canonical representation. -/
def cImport (sep : String) (pairs : List (String × HostAttributes)) (t : Node) : Node :=
  pairs.foldl (fun t p => cInsertRecord sep t p.1 p.2) t

theorem sortChildren_insertRecord (sep : String) (t : Node) (host : String)
    (a : HostAttributes) :
    sortChildren (insertRecord sep t host a) = cInsertRecord sep (sortChildren t) host a := by
  unfold insertRecord cInsertRecord
  generalize envList a = envs
  induction envs generalizing t with
  | nil => rfl
  | cons e es ih =>
    simp only [List.foldl_cons]
    rw [ih, sortChildren_insertPath, sortChildren_insertPath]

theorem sortChildren_importPairs (sep : String) (pairs : List (String × HostAttributes))
    (t : Node) :
    sortChildren (importPairs sep pairs t) = cImport sep pairs (sortChildren t) := by
  unfold importPairs cImport
  induction pairs generalizing t with
  | nil => rfl
  | cons p ps ih =>
    simp only [List.foldl_cons]
    rw [ih, sortChildren_insertRecord]

/-- `ImportHosts` equals the canonical import of the sorted starting tree. -/
theorem importHosts_eq_cImport (sep : String) (pairs : List (String × HostAttributes))
    (t : Node) : importHosts sep pairs t = cImport sep pairs (sortChildren t) := by
  rw [importHosts, sortChildren_importPairs]

/-- Fold of canonical insertions over a list of `(host, path)` pairs. -/
def applyPaths (l : List (String × List String)) (t : Node) : Node :=
  l.foldl (fun t hp => cInsert hp.1 t hp.2) t

/-- The `(host, path)` pairs inserted for one record. -/
def recordPaths (sep host : String) (a : HostAttributes) : List (String × List String) :=
  (envList a).flatMap fun env =>
    [(host, servicePath sep env a), (host, hostOsPath sep env a)]

theorem applyPaths_append (l1 l2 : List (String × List String)) (t : Node) :
    applyPaths (l1 ++ l2) t = applyPaths l2 (applyPaths l1 t) := by
  unfold applyPaths
  rw [List.foldl_append]

theorem cInsertRecord_eq_applyPaths (sep : String) (t : Node) (host : String)
    (a : HostAttributes) :
    cInsertRecord sep t host a = applyPaths (recordPaths sep host a) t := by
  unfold cInsertRecord recordPaths
  generalize envList a = envs
  induction envs generalizing t with
  | nil => rfl
  | cons e es ih =>
    simp only [List.foldl_cons, List.flatMap_cons]
    rw [ih]
    rfl

theorem cImport_eq_applyPaths (sep : String) (pairs : List (String × HostAttributes))
    (t : Node) :
    cImport sep pairs t = applyPaths (pairs.flatMap fun p => recordPaths sep p.1 p.2) t := by
  unfold cImport
  induction pairs generalizing t with
  | nil => rfl
  | cons p ps ih =>
    simp only [List.foldl_cons, List.flatMap_cons]
    rw [ih, applyPaths_append, cInsertRecord_eq_applyPaths]

theorem applyPaths_cons (x : String × List String) (xs : List (String × List String))
    (t : Node) : applyPaths (x :: xs) t = applyPaths xs (cInsert x.1 t x.2) := rfl

theorem cInsert_applyPaths_comm (h : String) (p : List String)
    (l : List (String × List String)) (t : Node) :
    cInsert h (applyPaths l t) p = applyPaths l (cInsert h t p) := by
  induction l generalizing t with
  | nil => rfl
  | cons x xs ih =>
    rw [applyPaths_cons, applyPaths_cons, ih, cInsert_comm]

theorem applyPaths_swap (l1 l2 : List (String × List String)) (t : Node) :
    applyPaths l2 (applyPaths l1 t) = applyPaths l1 (applyPaths l2 t) := by
  induction l1 generalizing t with
  | nil => rfl
  | cons x xs ih =>
    rw [applyPaths_cons, ih, ← cInsert_applyPaths_comm, applyPaths_cons]

theorem cInsertRecord_comm (sep : String) (t : Node) (h1 : String) (a1 : HostAttributes)
    (h2 : String) (a2 : HostAttributes) :
    cInsertRecord sep (cInsertRecord sep t h1 a1) h2 a2 =
      cInsertRecord sep (cInsertRecord sep t h2 a2) h1 a1 := by
  rw [cInsertRecord_eq_applyPaths, cInsertRecord_eq_applyPaths,
    cInsertRecord_eq_applyPaths, cInsertRecord_eq_applyPaths, applyPaths_swap]

/-- The canonical import is invariant under permutation of the records. -/
theorem cImport_perm (sep : String) {l l' : List (String × HostAttributes)}
    (hp : l.Perm l') : ∀ t : Node, cImport sep l t = cImport sep l' t := by
  induction hp with
  | nil => intro t; rfl
  | cons x _ ih =>
    intro t
    simp only [cImport, List.foldl_cons]
    exact ih _
  | swap x y l =>
    intro t
    simp only [cImport, List.foldl_cons]
    rw [cInsertRecord_comm]
  | trans _ _ ih1 ih2 =>
    intro t
    rw [ih1, ih2]

/-! ## Tree induction and the canonical sortedness invariant -/

/-- Size of a tree, for well-founded induction over nodes. -/
def sizeN : Node → Nat
  | ⟨_, cs, _⟩ => 1 + sizeNL cs
where
  /-- Total size of a list of trees. -/
  sizeNL : List Node → Nat
  | [] => 0
  | c :: cs => sizeN c + sizeNL cs

theorem sizeN_le_of_mem {c : Node} {cs : List Node} (hc : c ∈ cs) :
    sizeN c ≤ sizeN.sizeNL cs := by
  induction cs with
  | nil => cases hc
  | cons d ds ih =>
    rcases List.mem_cons.mp hc with rfl | hmem
    · simp [sizeN.sizeNL]
    · have := ih hmem
      simp only [sizeN.sizeNL]
      omega

theorem sizeN_lt_of_mem {c : Node} {nm : String} {cs : List Node} {hs : List String}
    (hc : c ∈ cs) : sizeN c < sizeN ⟨nm, cs, hs⟩ := by
  have := sizeN_le_of_mem hc
  rw [sizeN]
  omega

/-- Structural induction over trees: to prove a property of every node it
suffices to prove it for a node assuming it for all children. -/
theorem node_ind (P : Node → Prop)
    (step : ∀ (nm : String) (cs : List Node) (hs : List String),
      (∀ c ∈ cs, P c) → P ⟨nm, cs, hs⟩) : ∀ t, P t := by
  suffices key : ∀ (k : Nat) (t : Node), sizeN t ≤ k → P t by
    intro t
    exact key (sizeN t) t (Nat.le_refl _)
  intro k
  induction k with
  | zero =>
    intro t hle
    cases t with
    | mk nm cs hs =>
      rw [sizeN] at hle
      omega
  | succ k ih =>
    intro t hle
    cases t with
    | mk nm cs hs =>
      refine step nm cs hs fun c hc => ih c ?_
      have : sizeN c < sizeN ⟨nm, cs, hs⟩ := sizeN_lt_of_mem hc
      omega

/-- The canonical form maintained by `cInsert`: children sorted by name at
every node.  (Children of one parent also have pairwise distinct names, but
sortedness is all the idempotence argument needs.) -/
inductive CSorted : Node → Prop
  | mk : ∀ (nm : String) (cs : List Node) (hs : List String),
      cs.Pairwise (fun a b => strLe a.name b.name = true) →
      (∀ c ∈ cs, CSorted c) → CSorted ⟨nm, cs, hs⟩

theorem CSorted.children_pairwise {nm : String} {cs : List Node} {hs : List String}
    (h : CSorted ⟨nm, cs, hs⟩) :
    cs.Pairwise (fun a b => strLe a.name b.name = true) := by
  cases h; assumption

theorem CSorted.children_mem {nm : String} {cs : List Node} {hs : List String}
    (h : CSorted ⟨nm, cs, hs⟩) : ∀ c ∈ cs, CSorted c := by
  cases h; assumption

theorem mem_insNode (y x : Node) (l : List Node) :
    y ∈ insNode x l ↔ y = x ∨ y ∈ l := by
  induction l with
  | nil => simp [insNode]
  | cons z zs ih =>
    rw [insNode]
    by_cases hle : strLe x.name z.name = true
    · simp [if_pos hle]
    · simp only [if_neg hle, List.mem_cons, ih]
      tauto

theorem insNode_pairwise (x : Node) (l : List Node)
    (hl : l.Pairwise (fun a b => strLe a.name b.name = true)) :
    (insNode x l).Pairwise (fun a b => strLe a.name b.name = true) := by
  induction l with
  | nil => simp [insNode]
  | cons z zs ih =>
    rw [insNode]
    rcases List.pairwise_cons.mp hl with ⟨hz, hzs⟩
    by_cases hle : strLe x.name z.name = true
    · rw [if_pos hle]
      refine List.pairwise_cons.mpr ⟨?_, hl⟩
      intro y hy
      rcases List.mem_cons.mp hy with rfl | hmem
      · exact hle
      · exact strLe_trans hle (hz y hmem)
    · rw [if_neg hle]
      refine List.pairwise_cons.mpr ⟨?_, ih hzs⟩
      intro y hy
      rcases (mem_insNode y x zs).mp hy with heq | hmem
      · subst heq
        rcases strLe_total y.name z.name with h | h
        · exact absurd h hle
        · exact h
      · exact hz y hmem

theorem sortNodes_pairwise (l : List Node) :
    (sortNodes l).Pairwise (fun a b => strLe a.name b.name = true) := by
  induction l with
  | nil => simp [sortNodes]
  | cons c cs ih => exact insNode_pairwise c (sortNodes cs) ih

theorem mem_sortNodes (y : Node) (l : List Node) : y ∈ sortNodes l ↔ y ∈ l := by
  induction l with
  | nil => simp [sortNodes]
  | cons c cs ih =>
    rw [sortNodes, mem_insNode]
    simp [ih]

/-- `SortChildren` establishes the canonical sortedness invariant. -/
theorem CSorted_sortChildren : ∀ t, CSorted (sortChildren t) := by
  refine node_ind (fun t => CSorted (sortChildren t)) ?_
  intro nm cs hs ih
  rw [sortChildren_mk]
  refine CSorted.mk nm _ hs (sortNodes_pairwise _) ?_
  intro c hc
  rw [mem_sortNodes] at hc
  rcases List.mem_map.mp hc with ⟨d, hd, rfl⟩
  exact ih d hd

/-- A node whose name is at most every name in a sorted list prepends a
sorted insertion. -/
theorem insNode_eq_cons (x : Node) (l : List Node)
    (hle : ∀ y ∈ l, strLe x.name y.name = true) : insNode x l = x :: l := by
  cases l with
  | nil => rfl
  | cons z zs => rw [insNode, if_pos (hle z (by simp))]

theorem sortNodes_eq_self (l : List Node)
    (hl : l.Pairwise (fun a b => strLe a.name b.name = true)) : sortNodes l = l := by
  induction l with
  | nil => rfl
  | cons c cs ih =>
    rcases List.pairwise_cons.mp hl with ⟨hc, hcs⟩
    rw [sortNodes, ih hcs, insNode_eq_cons c cs hc]

/-- `SortChildren` is the identity on canonically sorted trees. -/
theorem sortChildren_eq_self : ∀ t, CSorted t → sortChildren t = t := by
  refine node_ind (fun t => CSorted t → sortChildren t = t) ?_
  intro nm cs hs ih hsorted
  rw [sortChildren_mk]
  have hmap : cs.map sortChildren = cs := by
    have heq : cs.map sortChildren = cs.map id :=
      List.map_congr_left fun c hc => ih c hc (hsorted.children_mem c hc)
    simpa using heq
  rw [hmap, sortNodes_eq_self cs hsorted.children_pairwise]

theorem map_name_replaceNamed (s : String) (v : Node) (hv : v.name = s) (l : List Node) :
    (replaceNamed s v l).map Node.name = l.map Node.name := by
  induction l with
  | nil => rfl
  | cons c cs ih =>
    rw [replaceNamed]
    by_cases hc : c.name = s
    · simp [hv, hc]
    · simp [hc, ih]

theorem mem_replaceNamed (y : Node) (s : String) (v : Node) (l : List Node)
    (hy : y ∈ replaceNamed s v l) : y = v ∨ y ∈ l := by
  induction l with
  | nil => cases hy
  | cons c cs ih =>
    rw [replaceNamed] at hy
    by_cases hc : c.name = s
    · rw [if_pos hc] at hy
      rcases List.mem_cons.mp hy with heq | hmem
      · exact Or.inl heq
      · exact Or.inr (by simp [hmem])
    · rw [if_neg hc] at hy
      rcases List.mem_cons.mp hy with heq | hmem
      · exact Or.inr (by simp [heq])
      · rcases ih hmem with h1 | h1
        · exact Or.inl h1
        · exact Or.inr (by simp [h1])

theorem CSorted_mkNode (s : String) : CSorted (mkNode s) :=
  CSorted.mk s [] [] (by simp) (by simp)

theorem pairwise_names (l : List Node) :
    (l.map Node.name).Pairwise (fun a b => strLe a b = true) ↔
      l.Pairwise (fun a b => strLe a.name b.name = true) := by
  induction l with
  | nil => simp
  | cons c cs ih =>
    simp only [List.map_cons, List.pairwise_cons, ih]
    constructor
    · rintro ⟨h1, h2⟩
      refine ⟨fun y hy => h1 y.name (List.mem_map_of_mem Node.name hy), h2⟩
    · rintro ⟨h1, h2⟩
      refine ⟨fun b hb => ?_, h2⟩
      rcases List.mem_map.mp hb with ⟨y, hy, rfl⟩
      exact h1 y hy

/-- Canonical insertion preserves the sortedness invariant. -/
theorem cInsert_CSorted (h : String) (p : List String) :
    ∀ t, CSorted t → CSorted (cInsert h t p) := by
  induction p with
  | nil =>
    intro t ht
    cases ht with
    | mk nm cs hs hpw hmem => exact CSorted.mk nm cs _ hpw hmem
  | cons s rest ih =>
    intro t ht
    cases t with
    | mk nm cs hs =>
      have hpw := ht.children_pairwise
      have hmem := ht.children_mem
      by_cases hn : nm = s
      · rw [cInsert_cons_self_mk h nm cs hs s rest hn]
        exact ih _ ht
      · cases hfind : cs.find? (fun c => c.name = s) with
        | some c =>
          have hcname : c.name = s := by simpa using List.find?_some hfind
          rw [cInsert_cons_found_mk h nm cs hs s rest c hn hfind]
          have hnames : (replaceNamed s (cInsert h c rest) cs).map Node.name =
              cs.map Node.name :=
            map_name_replaceNamed s _ (by rw [name_cInsert]; exact hcname) cs
          refine CSorted.mk nm _ hs ?_ ?_
          · have hiff := pairwise_names (replaceNamed s (cInsert h c rest) cs)
            refine hiff.mp ?_
            rw [hnames]
            exact (pairwise_names cs).mpr hpw
          · intro y hy
            rcases mem_replaceNamed y s _ cs hy with heq | hmem2
            · subst heq
              exact ih c (hmem c (List.mem_of_find?_eq_some hfind))
            · exact hmem y hmem2
        | none =>
          rw [cInsert_cons_new_mk h nm cs hs s rest hn hfind]
          refine CSorted.mk nm _ hs (insNode_pairwise _ cs hpw) ?_
          intro y hy
          rcases (mem_insNode y _ cs).mp hy with heq | hmem2
          · subst heq
            exact ih (mkNode s) (CSorted_mkNode s)
          · exact hmem y hmem2

theorem applyPaths_CSorted (l : List (String × List String)) :
    ∀ t, CSorted t → CSorted (applyPaths l t) := by
  induction l with
  | nil => intro t ht; exact ht
  | cons x xs ih =>
    intro t ht
    rw [applyPaths_cons]
    exact ih _ (cInsert_CSorted x.1 x.2 t ht)

theorem cImport_CSorted (sep : String) (pairs : List (String × HostAttributes)) (t : Node)
    (ht : CSorted t) : CSorted (cImport sep pairs t) := by
  rw [cImport_eq_applyPaths]
  exact applyPaths_CSorted _ t ht

/-! ## Containment: a path already present makes insertion a no-op -/

/-- The tree already contains the full path with the host at its end,
following exactly the walk `cInsert` performs. -/
def cContains (host : String) : Node → List String → Prop
  | n, [] => host ∈ n.hosts
  | n, s :: rest =>
    if n.name = s then cContains host n rest
    else
      match n.children.find? (fun c => c.name = s) with
      | some c => cContains host c rest
      | none => False

theorem cContains_cons (host : String) (n : Node) (s : String) (rest : List String) :
    cContains host n (s :: rest) =
      if n.name = s then cContains host n rest
      else
        match n.children.find? (fun c => c.name = s) with
        | some c => cContains host c rest
        | none => False := by
  rw [cContains]

theorem mem_insertStr (x h : String) (l : List String) :
    x ∈ insertStr h l ↔ x = h ∨ x ∈ l := by
  unfold insertStr
  by_cases hm : h ∈ l
  · rw [if_pos hm]
    constructor
    · exact Or.inr
    · rintro (rfl | hx)
      · exact hm
      · exact hx
  · rw [if_neg hm]
    exact mem_insStr x h l

theorem hosts_cInsert_mem (h x : String) (p : List String) :
    ∀ t : Node, x ∈ t.hosts → x ∈ (cInsert h t p).hosts := by
  induction p with
  | nil =>
    intro t hx
    cases t with
    | mk nm cs hs =>
      show x ∈ insertStr h hs
      exact (mem_insertStr x h hs).mpr (Or.inr hx)
  | cons s rest ih =>
    intro t hx
    cases t with
    | mk nm cs hs =>
      by_cases hn : nm = s
      · rw [cInsert_cons_self_mk h nm cs hs s rest hn]
        exact ih _ hx
      · cases hfind : cs.find? (fun c => c.name = s) with
        | some c =>
          rw [cInsert_cons_found_mk h nm cs hs s rest c hn hfind]
          exact hx
        | none =>
          rw [cInsert_cons_new_mk h nm cs hs s rest hn hfind]
          exact hx

/-- Insertion makes its own path contained. -/
theorem cContains_cInsert (h : String) (p : List String) :
    ∀ t : Node, cContains h (cInsert h t p) p := by
  induction p with
  | nil =>
    intro t
    cases t with
    | mk nm cs hs =>
      show h ∈ insertStr h hs
      exact (mem_insertStr h h hs).mpr (Or.inl rfl)
  | cons s rest ih =>
    intro t
    cases t with
    | mk nm cs hs =>
      by_cases hn : nm = s
      · rw [cInsert_cons_self_mk h nm cs hs s rest hn, cContains_cons,
          if_pos (by rw [name_cInsert]; exact hn)]
        exact ih _
      · cases hfind : cs.find? (fun c => c.name = s) with
        | some c =>
          have hcname : c.name = s := by simpa using List.find?_some hfind
          rw [cInsert_cons_found_mk h nm cs hs s rest c hn hfind, cContains_cons,
            if_neg (show Node.name ⟨nm, _, hs⟩ ≠ s from hn)]
          have hf2 : (replaceNamed s (cInsert h c rest) cs).find? (fun x => x.name = s) =
              some (cInsert h c rest) := by
            rw [find?_replaceNamed_self s _ (by rw [name_cInsert]; exact hcname), hfind]
            rfl
          rw [show Node.children ⟨nm, replaceNamed s (cInsert h c rest) cs, hs⟩ =
            replaceNamed s (cInsert h c rest) cs from rfl, hf2]
          exact ih c
        | none =>
          rw [cInsert_cons_new_mk h nm cs hs s rest hn hfind, cContains_cons,
            if_neg (show Node.name ⟨nm, _, hs⟩ ≠ s from hn)]
          have hf2 : (insNode (cInsert h (mkNode s) rest) cs).find? (fun x => x.name = s) =
              some (cInsert h (mkNode s) rest) :=
            find?_insNode_self s (cInsert h (mkNode s) rest) (by rw [name_cInsert]; rfl) cs
          rw [show Node.children ⟨nm, insNode (cInsert h (mkNode s) rest) cs, hs⟩ =
            insNode (cInsert h (mkNode s) rest) cs from rfl, hf2]
          exact ih (mkNode s)

theorem replaceNamed_self_id (s : String) (c : Node) (l : List Node)
    (hf : l.find? (fun x => x.name = s) = some c) : replaceNamed s c l = l := by
  induction l with
  | nil => rfl
  | cons z zs ih =>
    rw [replaceNamed]
    by_cases hz : z.name = s
    · rw [if_pos hz]
      have hcz : c = z := by
        rw [List.find?] at hf
        simp only [hz] at hf
        simp at hf
        exact hf.symm
      rw [hcz]
    · rw [if_neg hz]
      rw [List.find?] at hf
      simp only [hz] at hf
      simp at hf
      rw [ih hf]

/-- Inserting an already contained path does not change the tree. -/
theorem cInsert_of_cContains (h : String) (p : List String) :
    ∀ t : Node, cContains h t p → cInsert h t p = t := by
  induction p with
  | nil =>
    intro t hc
    cases t with
    | mk nm cs hs =>
      have hmem : h ∈ hs := hc
      show (⟨nm, cs, insertStr h hs⟩ : Node) = ⟨nm, cs, hs⟩
      rw [insertStr, if_pos hmem]
  | cons s rest ih =>
    intro t hc
    cases t with
    | mk nm cs hs =>
      rw [cContains_cons] at hc
      by_cases hn : nm = s
      · rw [if_pos (show Node.name ⟨nm, cs, hs⟩ = s from hn)] at hc
        rw [cInsert_cons_self_mk h nm cs hs s rest hn]
        exact ih _ hc
      · rw [if_neg (show Node.name ⟨nm, cs, hs⟩ ≠ s from hn)] at hc
        cases hfind : cs.find? (fun c => c.name = s) with
        | some c =>
          rw [show Node.children ⟨nm, cs, hs⟩ = cs from rfl, hfind] at hc
          rw [cInsert_cons_found_mk h nm cs hs s rest c hn hfind, ih c hc,
            replaceNamed_self_id s c cs hfind]
        | none =>
          rw [show Node.children ⟨nm, cs, hs⟩ = cs from rfl, hfind] at hc
          cases hc

/-- Containment is preserved by any further insertion. -/
theorem cContains_mono_aux (k : Nat) : ∀ (p q : List String) (h h0 : String) (t : Node),
    p.length + q.length ≤ k → cContains h0 t q → cContains h0 (cInsert h t p) q := by
  induction k with
  | zero =>
    intro p q h h0 t hle hc
    have hp : p = [] := List.eq_nil_of_length_eq_zero (by omega)
    have hq : q = [] := List.eq_nil_of_length_eq_zero (by omega)
    subst hp; subst hq
    cases t with
    | mk nm cs hs => exact (mem_insertStr h0 h hs).mpr (Or.inr hc)
  | succ k ih =>
    intro p q h h0 t hle hc
    cases q with
    | nil => exact hosts_cInsert_mem h h0 p t hc
    | cons u v =>
      cases t with
      | mk nm cs hs =>
        rw [cContains_cons] at hc
        by_cases hnu : nm = u
        · rw [if_pos (show Node.name ⟨nm, cs, hs⟩ = u from hnu)] at hc
          rw [cContains_cons,
            if_pos (show (cInsert h ⟨nm, cs, hs⟩ p).name = u by rw [name_cInsert]; exact hnu)]
          refine ih p v h h0 ⟨nm, cs, hs⟩ ?_ hc
          simp only [List.length_cons] at hle
          omega
        · rw [if_neg (show Node.name ⟨nm, cs, hs⟩ ≠ u from hnu),
            show Node.children ⟨nm, cs, hs⟩ = cs from rfl] at hc
          cases hfu : cs.find? (fun c => c.name = u) with
          | none => rw [hfu] at hc; cases hc
          | some d =>
            rw [hfu] at hc
            cases p with
            | nil =>
              rw [show cInsert h ⟨nm, cs, hs⟩ [] = ⟨nm, cs, insertStr h hs⟩ from rfl,
                cContains_cons, if_neg (show Node.name ⟨nm, cs, _⟩ ≠ u from hnu),
                show Node.children ⟨nm, cs, insertStr h hs⟩ = cs from rfl, hfu]
              exact hc
            | cons s r =>
              by_cases hns : nm = s
              · rw [cInsert_cons_self_mk h nm cs hs s r hns]
                refine ih r (u :: v) h h0 ⟨nm, cs, hs⟩ ?_ ?_
                · simp only [List.length_cons] at hle ⊢
                  omega
                · rw [cContains_cons,
                    if_neg (show Node.name ⟨nm, cs, hs⟩ ≠ u from hnu),
                    show Node.children ⟨nm, cs, hs⟩ = cs from rfl, hfu]
                  exact hc
              · by_cases hsu : s = u
                · subst hsu
                  rw [cInsert_cons_found_mk h nm cs hs s r d hns hfu,
                    cContains_cons, if_neg (show Node.name ⟨nm, _, hs⟩ ≠ s from hns)]
                  have hdname : d.name = s := by simpa using List.find?_some hfu
                  have hf2 : (replaceNamed s (cInsert h d r) cs).find?
                      (fun x => x.name = s) = some (cInsert h d r) := by
                    rw [find?_replaceNamed_self s _ (by rw [name_cInsert]; exact hdname), hfu]
                    rfl
                  rw [show Node.children ⟨nm, replaceNamed s (cInsert h d r) cs, hs⟩ =
                    replaceNamed s (cInsert h d r) cs from rfl, hf2]
                  refine ih r v h h0 d ?_ hc
                  simp only [List.length_cons] at hle ⊢
                  omega
                · cases hfs : cs.find? (fun c => c.name = s) with
                  | some c =>
                    have hcname : c.name = s := by simpa using List.find?_some hfs
                    rw [cInsert_cons_found_mk h nm cs hs s r c hns hfs,
                      cContains_cons, if_neg (show Node.name ⟨nm, _, hs⟩ ≠ u from hnu)]
                    have hf2 : (replaceNamed s (cInsert h c r) cs).find?
                        (fun x => x.name = u) = some d := by
                      rw [find?_replaceNamed_ne u s (fun he => hsu he.symm) _
                        (by rw [name_cInsert]; exact hcname), hfu]
                    rw [show Node.children ⟨nm, replaceNamed s (cInsert h c r) cs, hs⟩ =
                      replaceNamed s (cInsert h c r) cs from rfl, hf2]
                    exact hc
                  | none =>
                    rw [cInsert_cons_new_mk h nm cs hs s r hns hfs,
                      cContains_cons, if_neg (show Node.name ⟨nm, _, hs⟩ ≠ u from hnu)]
                    have hf2 : (insNode (cInsert h (mkNode s) r) cs).find?
                        (fun x => x.name = u) = some d := by
                      rw [find?_insNode_ne u (cInsert h (mkNode s) r)
                        (by rw [name_cInsert]; simpa [mkNode, Node.name] using hsu) cs, hfu]
                    rw [show Node.children ⟨nm, insNode (cInsert h (mkNode s) r) cs, hs⟩ =
                      insNode (cInsert h (mkNode s) r) cs from rfl, hf2]
                    exact hc

theorem cContains_mono (p q : List String) (h h0 : String) (t : Node)
    (hc : cContains h0 t q) : cContains h0 (cInsert h t p) q :=
  cContains_mono_aux (p.length + q.length) p q h h0 t (Nat.le_refl _) hc

theorem applyPaths_mono (l : List (String × List String)) (q : List String)
    (h0 : String) (t : Node) (hc : cContains h0 t q) :
    cContains h0 (applyPaths l t) q := by
  induction l generalizing t with
  | nil => exact hc
  | cons x xs ih =>
    rw [applyPaths_cons]
    exact ih _ (cContains_mono x.2 q x.1 h0 t hc)

theorem applyPaths_contains (l : List (String × List String)) (t : Node) :
    ∀ x ∈ l, cContains x.1 (applyPaths l t) x.2 := by
  induction l generalizing t with
  | nil => intro x hx; cases hx
  | cons y ys ih =>
    intro x hx
    rw [applyPaths_cons]
    rcases List.mem_cons.mp hx with rfl | hmem
    · exact applyPaths_mono ys x.2 x.1 _ (cContains_cInsert x.1 x.2 t)
    · exact ih _ x hmem

theorem applyPaths_of_contains (l : List (String × List String)) (t : Node)
    (hc : ∀ x ∈ l, cContains x.1 t x.2) : applyPaths l t = t := by
  induction l with
  | nil => rfl
  | cons y ys ih =>
    rw [applyPaths_cons, cInsert_of_cContains y.1 y.2 t (hc y (by simp))]
    exact ih fun x hx => hc x (by simp [hx])

theorem applyPaths_idem (l : List (String × List String)) (t : Node) :
    applyPaths l (applyPaths l t) = applyPaths l t :=
  applyPaths_of_contains l _ (applyPaths_contains l t)

/-- Re-importing the same pairs is the identity (core of idempotence). -/
theorem importHosts_idem_aux (sep : String) (pairs : List (String × HostAttributes))
    (t : Node) :
    importHosts sep pairs (importHosts sep pairs t) = importHosts sep pairs t := by
  rw [importHosts_eq_cImport sep pairs t,
    importHosts_eq_cImport sep pairs (cImport sep pairs (sortChildren t)),
    sortChildren_eq_self _ (cImport_CSorted sep pairs _ (CSorted_sortChildren t)),
    cImport_eq_applyPaths sep pairs (sortChildren t),
    cImport_eq_applyPaths sep pairs
      (applyPaths (pairs.flatMap fun p => recordPaths sep p.1 p.2) (sortChildren t)),
    applyPaths_idem]

/-- Import is invariant under permutation of the record pairs. -/
theorem importHosts_perm_aux (sep : String) {l l' : List (String × HostAttributes)}
    (hp : l.Perm l') (t : Node) : importHosts sep l t = importHosts sep l' t := by
  rw [importHosts_eq_cImport, importHosts_eq_cImport, cImport_perm sep hp]

/-! ## The root's own host set -/

theorem hosts_sortChildren (t : Node) : (sortChildren t).hosts = t.hosts := by
  cases t; rfl

theorem name_applyPaths (l : List (String × List String)) (t : Node) :
    (applyPaths l t).name = t.name := by
  induction l generalizing t with
  | nil => rfl
  | cons x xs ih => rw [applyPaths_cons, ih, name_cInsert]

theorem data_append (a b : String) : (a ++ b).data = a.data ++ b.data := by
  cases a; cases b; rfl

theorem append_append_ne_of_ne_empty (a b c : String) (hc : c.data ≠ []) :
    a ++ b ++ c ≠ a := by
  intro h
  have hdata := congrArg String.data h
  rw [data_append, data_append] at hdata
  have hlen := congrArg List.length hdata
  simp only [List.length_append] at hlen
  have : c.data.length = 0 := by omega
  exact hc (List.eq_nil_of_length_eq_zero this)

/-- `cInsert` along a path that leaves the node (some name differs from the
node's own name) does not touch the node's own host set. -/
theorem hosts_cInsert_of_ne (h : String) (p : List String) :
    ∀ t : Node, (∃ s ∈ p, s ≠ t.name) → (cInsert h t p).hosts = t.hosts := by
  induction p with
  | nil =>
    intro t hex
    rcases hex with ⟨s, hs, _⟩
    cases hs
  | cons s rest ih =>
    intro t hex
    cases t with
    | mk nm cs hs =>
      by_cases hn : nm = s
      · rw [cInsert_cons_self_mk h nm cs hs s rest hn]
        refine ih _ ?_
        rcases hex with ⟨x, hx, hxne⟩
        rcases List.mem_cons.mp hx with rfl | hmem
        · exact absurd (show x = Node.name ⟨nm, cs, hs⟩ from hn.symm) hxne
        · exact ⟨x, hmem, hxne⟩
      · cases hfind : cs.find? (fun c => c.name = s) with
        | some c =>
          rw [cInsert_cons_found_mk h nm cs hs s rest c hn hfind]
          rfl
        | none =>
          rw [cInsert_cons_new_mk h nm cs hs s rest hn hfind]
          rfl

theorem hosts_applyPaths_of_ne (l : List (String × List String)) :
    ∀ t : Node, (∀ x ∈ l, ∃ s ∈ x.2, s ≠ t.name) → (applyPaths l t).hosts = t.hosts := by
  induction l with
  | nil => intro t _; rfl
  | cons x xs ih =>
    intro t hl
    rw [applyPaths_cons]
    have hname : (cInsert x.1 t x.2).name = t.name := name_cInsert x.1 x.2 t
    rw [ih _ fun y hy => hname ▸ hl y (by simp [hy]),
      hosts_cInsert_of_ne x.1 x.2 t (hl x (by simp))]

/-- Every path of a record with a non-empty role contains a group name that
is not the root name `"all"`. -/
theorem eq_empty_of_data_nil (s : String) (h : s.data = []) : s = "" := by
  cases s with
  | mk d =>
    have hd : d = [] := h
    subst hd
    rfl

theorem recordPaths_ne_all (sep host : String) (a : HostAttributes)
    (hrole : a.role ≠ "") :
    ∀ x ∈ recordPaths sep host a, ∃ s ∈ x.2, s ≠ "all" := by
  intro x hx
  have hroledata : a.role.data ≠ [] := fun hcontra =>
    hrole (eq_empty_of_data_nil a.role hcontra)
  rcases List.mem_flatMap.mp hx with ⟨env, _, hmem⟩
  by_cases he : env = "all"
  · subst he
    rcases List.mem_cons.mp hmem with rfl | hmem2
    · refine ⟨"all" ++ sep ++ a.role, by simp [servicePath], ?_⟩
      exact append_append_ne_of_ne_empty "all" sep a.role hroledata
    · rcases List.mem_cons.mp hmem2 with rfl | hmem3
      · refine ⟨"all" ++ sep ++ "host", by simp [hostOsPath], ?_⟩
        exact append_append_ne_of_ne_empty "all" sep "host" (by simp)
      · cases hmem3
  · rcases List.mem_cons.mp hmem with rfl | hmem2
    · exact ⟨env, by simp [servicePath], he⟩
    · rcases List.mem_cons.mp hmem2 with rfl | hmem3
      · exact ⟨env, by simp [hostOsPath], he⟩
      · cases hmem3

theorem name_importHosts (sep : String) (pairs : List (String × HostAttributes)) (t : Node) :
    (importHosts sep pairs t).name = t.name := by
  rw [importHosts_eq_cImport, cImport_eq_applyPaths, name_applyPaths, name_sortChildren]

/-- One `ImportHosts` call whose records all carry non-empty roles leaves the
host set of an `"all"`-named root untouched. -/
theorem hosts_importHosts_of_roles (sep : String) (pairs : List (String × HostAttributes))
    (t : Node) (hname : t.name = "all") (hroles : ∀ p ∈ pairs, p.2.role ≠ "") :
    (importHosts sep pairs t).hosts = t.hosts := by
  rw [importHosts_eq_cImport, cImport_eq_applyPaths]
  rw [hosts_applyPaths_of_ne _ (sortChildren t) ?cond, hosts_sortChildren]
  case cond =>
    intro x hx
    rcases List.mem_flatMap.mp hx with ⟨p, hp, hmem⟩
    have := recordPaths_ne_all sep p.1 p.2 (hroles p hp) x hmem
    rw [name_sortChildren, hname]
    exact this

/-! ## Nodes, names and ancestor paths of a tree -/

/-- All nodes of a tree in pre-order. -/
def nodesN : Node → List Node
  | ⟨nm, cs, hs⟩ => ⟨nm, cs, hs⟩ :: nodesNL cs
where
  /-- All nodes of a list of trees. -/
  nodesNL : List Node → List Node
  | [] => []
  | c :: cs => nodesN c ++ nodesNL cs

/-- All group names of a tree. -/
def namesN (t : Node) : List String := (nodesN t).map Node.name

/-- No two distinct nodes of the tree share a group name. -/
def uniqueNames (t : Node) : Prop := (namesN t).Nodup

/-- Every group name of the tree is non-empty (no node was created for an
empty path segment, e.g. by a record with an empty `Env`). -/
def nonemptyNames (t : Node) : Prop := ∀ x ∈ namesN t, x ≠ ""

/-- Every node of a tree paired with the names of its ancestors (what
`GetAncestors` reads off the parent pointers, stopping at the first
empty-named parent), `anc` being the ancestors of the tree's root itself. -/
def nodePaths (anc : List String) : Node → List (List String × Node)
  | ⟨nm, cs, hs⟩ =>
    (anc, ⟨nm, cs, hs⟩) :: nodePathsL (if nm = "" then [] else nm :: anc) cs
where
  /-- `nodePaths` over a list of subtrees sharing the ancestor list. -/
  nodePathsL (anc : List String) : List Node → List (List String × Node)
  | [] => []
  | c :: cs => nodePaths anc c ++ nodePathsL anc cs

theorem nodesNL_eq_flatMap (cs : List Node) :
    nodesN.nodesNL cs = cs.flatMap nodesN := by
  induction cs with
  | nil => rfl
  | cons c cs ih => rw [nodesN.nodesNL, ih, List.flatMap_cons]

theorem nodePathsL_eq_flatMap (anc : List String) (cs : List Node) :
    nodePaths.nodePathsL anc cs = cs.flatMap (nodePaths anc) := by
  induction cs with
  | nil => rfl
  | cons c cs ih => rw [nodePaths.nodePathsL, ih, List.flatMap_cons]

theorem nodesN_mk (nm : String) (cs : List Node) (hs : List String) :
    nodesN ⟨nm, cs, hs⟩ = ⟨nm, cs, hs⟩ :: cs.flatMap nodesN := by
  rw [nodesN, nodesNL_eq_flatMap]

theorem nodePaths_mk (anc : List String) (nm : String) (cs : List Node) (hs : List String) :
    nodePaths anc ⟨nm, cs, hs⟩ =
      (anc, ⟨nm, cs, hs⟩) ::
        cs.flatMap (nodePaths (if nm = "" then [] else nm :: anc)) := by
  rw [nodePaths, nodePathsL_eq_flatMap]

theorem nonemptyNames_root (nm : String) (cs : List Node) (hs : List String)
    (h : nonemptyNames ⟨nm, cs, hs⟩) : nm ≠ "" := by
  apply h
  rw [namesN, nodesN_mk]
  exact List.mem_map.mpr ⟨⟨nm, cs, hs⟩, List.mem_cons_self _ _, rfl⟩

theorem nonemptyNames_child (nm : String) (cs : List Node) (hs : List String)
    (h : nonemptyNames ⟨nm, cs, hs⟩) (c : Node) (hc : c ∈ cs) : nonemptyNames c := by
  intro x hx
  apply h
  rw [namesN] at hx
  rcases List.mem_map.mp hx with ⟨n, hn, heq⟩
  subst heq
  rw [namesN, nodesN_mk]
  exact List.mem_map.mpr
    ⟨n, List.mem_cons_of_mem _ (List.mem_flatMap.mpr ⟨c, hc, hn⟩), rfl⟩

theorem self_mem_nodesN (t : Node) : t ∈ nodesN t := by
  cases t with
  | mk nm cs hs => rw [nodesN_mk]; exact List.mem_cons_self _ _

theorem pathNode_mem : ∀ (t : Node) (anc : List String) (pr : List String × Node),
    pr ∈ nodePaths anc t → pr.2 ∈ nodesN t := by
  refine node_ind (fun t => ∀ anc pr, pr ∈ nodePaths anc t → pr.2 ∈ nodesN t) ?_
  intro nm cs hs ih anc pr hpr
  rw [nodePaths_mk] at hpr
  rw [nodesN_mk]
  rcases List.mem_cons.mp hpr with rfl | hmem
  · exact List.mem_cons_self _ _
  · rcases List.mem_flatMap.mp hmem with ⟨c, hc, hpc⟩
    exact List.mem_cons_of_mem _ (List.mem_flatMap.mpr ⟨c, hc, ih c hc _ pr hpc⟩)

theorem nodesN_trans : ∀ (t : Node) (m : Node), m ∈ nodesN t →
    ∀ n ∈ nodesN m, n ∈ nodesN t := by
  refine node_ind (fun t => ∀ m, m ∈ nodesN t → ∀ n ∈ nodesN m, n ∈ nodesN t) ?_
  intro nm cs hs ih m hm n hn
  rw [nodesN_mk] at hm ⊢
  rcases List.mem_cons.mp hm with rfl | hmem
  · rw [nodesN_mk] at hn
    exact hn
  · rcases List.mem_flatMap.mp hmem with ⟨c, hc, hmc⟩
    exact List.mem_cons_of_mem _ (List.mem_flatMap.mpr ⟨c, hc, ih c hc m hmc n hn⟩)

/-- In a tree all of whose group names are non-empty, every pair in
`nodePaths anc t` carries `anc` as a suffix of its ancestor names. -/
theorem nodePaths_anc_suffix : ∀ (t : Node), nonemptyNames t →
    ∀ (anc : List String) (pr : List String × Node),
    pr ∈ nodePaths anc t → ∃ pre, pr.1 = pre ++ anc := by
  refine node_ind (fun t => nonemptyNames t → ∀ anc pr,
    pr ∈ nodePaths anc t → ∃ pre, pr.1 = pre ++ anc) ?_
  intro nm cs hs ih hne anc pr hpr
  rw [nodePaths_mk, if_neg (nonemptyNames_root nm cs hs hne)] at hpr
  rcases List.mem_cons.mp hpr with rfl | hmem
  · exact ⟨[], rfl⟩
  · rcases List.mem_flatMap.mp hmem with ⟨c, hc, hpc⟩
    rcases ih c hc (nonemptyNames_child nm cs hs hne c hc) _ pr hpc with ⟨pre, hpre⟩
    exact ⟨pre ++ [nm], by rw [hpre]; simp⟩

/-! ## Association-list lookup/update lemmas -/

theorem lookupS_upsert_self {α : Type} (m : List (String × α)) (k : String) (v : α) :
    lookupS (upsertS m k v) k = some v := by
  induction m with
  | nil => simp [upsertS, lookupS]
  | cons p ps ih =>
    rw [upsertS]
    by_cases hp : p.1 = k
    · rw [if_pos hp]
      simp [lookupS]
    · rw [if_neg hp, lookupS, if_neg hp]
      exact ih

theorem lookupS_upsert_ne {α : Type} (m : List (String × α)) (k k' : String) (v : α)
    (hk : k' ≠ k) : lookupS (upsertS m k v) k' = lookupS m k' := by
  induction m with
  | nil =>
    rw [upsertS]
    simp only [lookupS]
    rw [if_neg (show ¬ k = k' from fun h => hk h.symm)]
  | cons p ps ih =>
    rw [upsertS]
    by_cases hp : p.1 = k
    · have hpk : ¬ p.1 = k' := by rw [hp]; exact fun h => hk h.symm
      rw [if_pos hp]
      simp only [lookupS]
      rw [if_neg (show ¬ k = k' from fun h => hk h.symm), if_neg hpk]
    · rw [if_neg hp]
      simp only [lookupS]
      by_cases hp' : p.1 = k'
      · rw [if_pos hp', if_pos hp']
      · rw [if_neg hp', if_neg hp', ih]

theorem lookupS_upsert_cases {α : Type} (m : List (String × α)) (k0 k : String) (v0 v : α)
    (h : lookupS (upsertS m k0 v0) k = some v) : v = v0 ∨ lookupS m k = some v := by
  by_cases hk : k = k0
  · subst hk
    rw [lookupS_upsert_self] at h
    exact Or.inl (Option.some.inj h).symm
  · rw [lookupS_upsert_ne m k0 k v0 hk] at h
    exact Or.inr h

/-! ## Membership in `GetAllHosts` -/

theorem mem_unionStr (x : String) (l acc : List String) :
    x ∈ unionStr l acc ↔ x ∈ l ∨ x ∈ acc := by
  induction l generalizing acc with
  | nil => simp [unionStr]
  | cons y ys ih =>
    rw [unionStr, ih, mem_insertStr]
    simp only [List.mem_cons]
    tauto

theorem mem_sortStrings (x : String) (l : List String) :
    x ∈ sortStrings l ↔ x ∈ l := by
  rw [sortStrings, mem_unionStr]
  simp

theorem mem_allHosts : ∀ (t : Node) (x : String),
    x ∈ allHosts t ↔ ∃ n ∈ nodesN t, x ∈ n.hosts := by
  refine node_ind (fun t => ∀ x, x ∈ allHosts t ↔ ∃ n ∈ nodesN t, x ∈ n.hosts) ?_
  intro nm cs hs ih x
  rw [allHosts, mem_unionStr, nodesN_mk]
  have hlist : ∀ ds : List Node, (∀ c ∈ ds, ∀ x, x ∈ allHosts c ↔ ∃ n ∈ nodesN c, x ∈ n.hosts) →
      (x ∈ allHosts.allHostsList ds ↔ ∃ c ∈ ds, ∃ n ∈ nodesN c, x ∈ n.hosts) := by
    intro ds
    induction ds with
    | nil => intro _; simp [allHosts.allHostsList]
    | cons d ds ihd =>
      intro hmem
      rw [allHosts.allHostsList, mem_unionStr, hmem d (by simp),
        ihd fun c hc => hmem c (by simp [hc])]
      simp only [List.mem_cons]
      constructor
      · rintro (⟨n, hn, hx⟩ | ⟨c, hc, n, hn, hx⟩)
        · exact ⟨d, Or.inl rfl, n, hn, hx⟩
        · exact ⟨c, Or.inr hc, n, hn, hx⟩
      · rintro ⟨c, hc | hc, n, hn, hx⟩
        · subst hc; exact Or.inl ⟨n, hn, hx⟩
        · exact Or.inr ⟨c, hc, n, hn, hx⟩
  rw [hlist cs ih]
  simp only [List.mem_cons, List.mem_flatMap]
  constructor
  · rintro (hx | ⟨c, hc, n, hn, hx⟩)
    · exact ⟨⟨nm, cs, hs⟩, Or.inl rfl, hx⟩
    · exact ⟨n, Or.inr ⟨c, hc, hn⟩, hx⟩
  · rintro ⟨n, hn | ⟨c, hc, hn⟩, hx⟩
    · subst hn; exact Or.inl hx
    · exact Or.inr ⟨c, hc, n, hn, hx⟩

/-! ## Characterization of `ExportGroups` -/

theorem exportGroups_mk (nm : String) (cs : List Node) (hs : List String)
    (m : List (String × List String)) :
    exportGroups ⟨nm, cs, hs⟩ m =
      exportGroups.exportGroupsList cs
        (upsertS m nm (sortStrings (allHosts ⟨nm, cs, hs⟩))) := rfl

theorem namesN_mk (nm : String) (cs : List Node) (hs : List String) :
    namesN ⟨nm, cs, hs⟩ = nm :: cs.flatMap namesN := by
  rw [namesN, nodesN_mk, List.map_cons]
  congr 1
  · rw [List.map_flatMap]
    rfl

theorem name_mem_namesN {n : Node} {t : Node} (hn : n ∈ nodesN t) : n.name ∈ namesN t :=
  List.mem_map_of_mem Node.name hn

/-- A traversal never writes keys outside the tree's name set. -/
theorem EG_not_list (g : String) :
    ∀ (ds : List Node),
      (∀ c ∈ ds, ∀ m g', g' ∉ namesN c → lookupS (exportGroups c m) g' = lookupS m g') →
      (∀ c ∈ ds, g ∉ namesN c) →
      ∀ m, lookupS (exportGroups.exportGroupsList ds m) g = lookupS m g := by
  intro ds
  induction ds with
  | nil => intro _ _ m; rfl
  | cons d ds ih =>
    intro hmem hnot m
    rw [exportGroups.exportGroupsList]
    rw [ih (fun c hc => hmem c (by simp [hc])) (fun c hc => hnot c (by simp [hc])),
      hmem d (by simp) m g (hnot d (by simp))]

theorem EG_not : ∀ (t : Node) (m : List (String × List String)) (g : String),
    g ∉ namesN t → lookupS (exportGroups t m) g = lookupS m g := by
  refine node_ind (fun t => ∀ m g, g ∉ namesN t →
    lookupS (exportGroups t m) g = lookupS m g) ?_
  intro nm cs hs ih m g hg
  rw [namesN_mk] at hg
  simp only [List.mem_cons, List.mem_flatMap, not_or, not_exists, not_and] at hg
  rw [exportGroups_mk, EG_not_list g cs ih (fun c hc => hg.2 c hc),
    lookupS_upsert_ne m nm g _ hg.1]

theorem EG_mem_list (n' : Node) :
    ∀ (ds : List Node),
      (∀ c ∈ ds, uniqueNames c → ∀ n'' ∈ nodesN c, ∀ m,
        lookupS (exportGroups c m) n''.name = some (sortStrings (allHosts n''))) →
      (ds.flatMap namesN).Nodup →
      ∀ c ∈ ds, n' ∈ nodesN c → ∀ m,
        lookupS (exportGroups.exportGroupsList ds m) n'.name =
          some (sortStrings (allHosts n')) := by
  intro ds
  induction ds with
  | nil => intro _ _ c hc; cases hc
  | cons d ds ih =>
    intro hmem hnodup c hc hn' m
    rw [List.flatMap_cons, List.nodup_append] at hnodup
    rcases hnodup with ⟨hnodup_d, hnodup_ds, hdisj⟩
    rw [exportGroups.exportGroupsList]
    rcases List.mem_cons.mp hc with rfl | hcds
    · rw [EG_not_list n'.name ds
        (fun c' hc' m' g' hg' => EG_not c' m' g' hg')
        (fun c' hc' => fun hmm =>
          hdisj (name_mem_namesN hn') (List.mem_flatMap.mpr ⟨c', hc', hmm⟩)),
        hmem c (by simp) hnodup_d n' hn' m]
    · exact ih (fun c' hc' => hmem c' (by simp [hc'])) hnodup_ds c hcds hn' _

theorem EG_mem : ∀ (t : Node), uniqueNames t → ∀ n' ∈ nodesN t,
    ∀ m, lookupS (exportGroups t m) n'.name = some (sortStrings (allHosts n')) := by
  refine node_ind (fun t => uniqueNames t → ∀ n' ∈ nodesN t, ∀ m,
    lookupS (exportGroups t m) n'.name = some (sortStrings (allHosts n'))) ?_
  intro nm cs hs ih hu n' hn' m
  have hu' := hu
  rw [uniqueNames, namesN_mk, List.nodup_cons] at hu'
  rcases hu' with ⟨hnm, hnodup⟩
  rw [nodesN_mk] at hn'
  rw [exportGroups_mk]
  rcases List.mem_cons.mp hn' with heq | hmem
  · subst heq
    rw [show (Node.mk nm cs hs).name = nm from rfl,
      EG_not_list nm cs (fun c' hc' m' g' hg' => EG_not c' m' g' hg')
      (fun c' hc' hmm => hnm (List.mem_flatMap.mpr ⟨c', hc', hmm⟩)),
      lookupS_upsert_self]
  · rcases List.mem_flatMap.mp hmem with ⟨c, hc, hcn⟩
    refine EG_mem_list n' cs ?_ hnodup c hc hcn _
    intro c' hc' hu'' n'' hn'' m'
    exact ih c' hc' hu'' n'' hn'' m'

/-! ## Characterization of `ExportHosts` -/

theorem exportHosts_mk (anc : List String) (nm : String) (cs : List Node)
    (hs : List String) (m : List (String × List String)) :
    exportHosts anc ⟨nm, cs, hs⟩ m =
      exportHosts.exportHostsList (if nm = "" then [] else nm :: anc) cs
        (addHostGroups (nm :: anc) m hs) := rfl

theorem memLookup_addHostGroups (names : List String) (hs : List String) :
    ∀ (m : List (String × List String)) (h g : String),
    memLookup (addHostGroups names m hs) h g ↔
      (h ∈ hs ∧ g ∈ names) ∨ memLookup m h g := by
  induction hs with
  | nil => intro m h g; simp [addHostGroups]
  | cons h0 hs ih =>
    intro m h g
    rw [addHostGroups, ih]
    have hm' : memLookup (upsertS m h0 (unionStr names (sortStrings ((lookupS m h0).getD []))))
        h g ↔ (h = h0 ∧ g ∈ names) ∨ memLookup m h g := by
      by_cases hh : h = h0
      · subst hh
        rw [memLookup, lookupS_upsert_self]
        simp only [Option.getD_some]
        rw [mem_unionStr, mem_sortStrings]
        simp [memLookup]
      · rw [memLookup, lookupS_upsert_ne m h0 h _ hh, memLookup]
        constructor
        · exact fun hg => Or.inr hg
        · rintro (⟨heq, _⟩ | hg)
          · exact absurd heq hh
          · exact hg
    rw [hm']
    simp only [List.mem_cons]
    constructor
    · rintro (⟨hhs, hg⟩ | ⟨heq, hg⟩ | hg)
      · exact Or.inl ⟨Or.inr hhs, hg⟩
      · exact Or.inl ⟨Or.inl heq, hg⟩
      · exact Or.inr hg
    · rintro (⟨heq | hhs, hg⟩ | hg)
      · exact Or.inr (Or.inl ⟨heq, hg⟩)
      · exact Or.inl ⟨hhs, hg⟩
      · exact Or.inr (Or.inr hg)

theorem EH_char : ∀ (t : Node) (anc : List String) (m : List (String × List String))
    (h g : String),
    memLookup (exportHosts anc t m) h g ↔
      memLookup m h g ∨
        ∃ pr ∈ nodePaths anc t, h ∈ pr.2.hosts ∧ (g = pr.2.name ∨ g ∈ pr.1) := by
  refine node_ind (fun t => ∀ anc m h g,
    memLookup (exportHosts anc t m) h g ↔
      memLookup m h g ∨
        ∃ pr ∈ nodePaths anc t, h ∈ pr.2.hosts ∧ (g = pr.2.name ∨ g ∈ pr.1)) ?_
  intro nm cs hs ih anc m h g
  have hlist : ∀ (ds : List Node),
      (∀ c ∈ ds, ∀ anc m h g,
        memLookup (exportHosts anc c m) h g ↔
          memLookup m h g ∨
            ∃ pr ∈ nodePaths anc c, h ∈ pr.2.hosts ∧ (g = pr.2.name ∨ g ∈ pr.1)) →
      ∀ (anc : List String) m,
      memLookup (exportHosts.exportHostsList anc ds m) h g ↔
        memLookup m h g ∨
          ∃ c ∈ ds, ∃ pr ∈ nodePaths anc c, h ∈ pr.2.hosts ∧ (g = pr.2.name ∨ g ∈ pr.1) := by
    intro ds
    induction ds with
    | nil =>
      intro _ anc0 m0
      rw [exportHosts.exportHostsList]
      constructor
      · exact fun hg => Or.inl hg
      · rintro (hg | ⟨c, hc, _⟩)
        · exact hg
        · cases hc
    | cons d ds ihd =>
      intro hmem anc m
      rw [exportHosts.exportHostsList,
        ihd (fun c hc => hmem c (by simp [hc])) anc,
        hmem d (by simp) anc]
      simp only [List.mem_cons]
      constructor
      · rintro ((hg | ⟨pr, hpr, hh⟩) | ⟨c, hc, pr, hpr, hh⟩)
        · exact Or.inl hg
        · exact Or.inr ⟨d, Or.inl rfl, pr, hpr, hh⟩
        · exact Or.inr ⟨c, Or.inr hc, pr, hpr, hh⟩
      · rintro (hg | ⟨c, hc | hc, pr, hpr, hh⟩)
        · exact Or.inl (Or.inl hg)
        · subst hc; exact Or.inl (Or.inr ⟨pr, hpr, hh⟩)
        · exact Or.inr ⟨c, hc, pr, hpr, hh⟩
  rw [exportHosts_mk, hlist cs ih (if nm = "" then [] else nm :: anc),
    memLookup_addHostGroups (nm :: anc) hs m h g, nodePaths_mk]
  simp only [List.mem_cons, List.mem_flatMap]
  constructor
  · rintro ((⟨hhs, hg⟩ | hg) | ⟨c, hc, pr, hpr, hh⟩)
    · exact Or.inr ⟨(anc, Node.mk nm cs hs), Or.inl rfl, hhs, hg⟩
    · exact Or.inl hg
    · exact Or.inr ⟨pr, Or.inr ⟨c, hc, hpr⟩, hh⟩
  · rintro (hg | ⟨pr, hpr | ⟨c, hc, hpr⟩, hh⟩)
    · exact Or.inl (Or.inr hg)
    · subst hpr
      rcases hh with ⟨hhs, heq | hmm⟩
      · exact Or.inl (Or.inl ⟨hhs, Or.inl heq⟩)
      · exact Or.inl (Or.inl ⟨hhs, Or.inr hmm⟩)
    · exact Or.inr ⟨c, hc, pr, hpr, hh⟩

/-! ## Linking ancestors and subtrees -/

/-- If a name appears among a node's ancestors (all group names being
non-empty), then (unless it is an ancestor of the whole tree) there is a
node of that name having the node in its subtree. -/
theorem nodePaths_anc_names : ∀ (t : Node), nonemptyNames t →
    ∀ (anc : List String) (pr : List String × Node),
    pr ∈ nodePaths anc t → ∀ g ∈ pr.1,
      g ∈ anc ∨ ∃ m' ∈ nodesN t, m'.name = g ∧ pr.2 ∈ nodesN m' := by
  refine node_ind (fun t => nonemptyNames t → ∀ anc pr, pr ∈ nodePaths anc t → ∀ g ∈ pr.1,
    g ∈ anc ∨ ∃ m' ∈ nodesN t, m'.name = g ∧ pr.2 ∈ nodesN m') ?_
  intro nm cs hs ih hne anc pr hpr g hg
  rw [nodePaths_mk, if_neg (nonemptyNames_root nm cs hs hne)] at hpr
  rcases List.mem_cons.mp hpr with rfl | hmem
  · exact Or.inl hg
  · rcases List.mem_flatMap.mp hmem with ⟨c, hc, hpc⟩
    rcases ih c hc (nonemptyNames_child nm cs hs hne c hc) (nm :: anc) pr hpc g hg with
      hup | ⟨m', hm', hname, hsub⟩
    · rcases List.mem_cons.mp hup with heq | hanc
      · refine Or.inr ⟨⟨nm, cs, hs⟩, self_mem_nodesN _, heq.symm, ?_⟩
        rw [nodesN_mk]
        exact List.mem_cons_of_mem _
          (List.mem_flatMap.mpr ⟨c, hc, pathNode_mem c (nm :: anc) pr hpc⟩)
      · exact Or.inl hanc
    · refine Or.inr ⟨m', ?_, hname, hsub⟩
      rw [nodesN_mk]
      exact List.mem_cons_of_mem _ (List.mem_flatMap.mpr ⟨c, hc, hm'⟩)

/-- Every node of a tree with non-empty group names appears in `nodePaths`,
and a strict descendant records the tree root's name among its ancestors. -/
theorem nodesN_nodePaths_self : ∀ (t : Node), nonemptyNames t →
    ∀ (anc : List String), ∀ n' ∈ nodesN t,
    ∃ a, (a, n') ∈ nodePaths anc t ∧ (n' = t ∨ t.name ∈ a) := by
  refine node_ind (fun t => nonemptyNames t → ∀ anc, ∀ n' ∈ nodesN t,
    ∃ a, (a, n') ∈ nodePaths anc t ∧ (n' = t ∨ t.name ∈ a)) ?_
  intro nm cs hs ih hne anc n' hn'
  rw [nodesN_mk] at hn'
  rcases List.mem_cons.mp hn' with heq | hmem
  · subst heq
    refine ⟨anc, ?_, Or.inl rfl⟩
    rw [nodePaths_mk]
    exact List.mem_cons_self _ _
  · rcases List.mem_flatMap.mp hmem with ⟨c, hc, hcn⟩
    rcases ih c hc (nonemptyNames_child nm cs hs hne c hc) (nm :: anc) n' hcn with ⟨a, hpa, _⟩
    rcases nodePaths_anc_suffix c (nonemptyNames_child nm cs hs hne c hc)
      (nm :: anc) (a, n') hpa with ⟨pre, hpre⟩
    refine ⟨a, ?_, Or.inr ?_⟩
    · rw [nodePaths_mk, if_neg (nonemptyNames_root nm cs hs hne)]
      exact List.mem_cons_of_mem _ (List.mem_flatMap.mpr ⟨c, hc, hpa⟩)
    · show nm ∈ a
      rw [show a = (a, n').1 from rfl, hpre]
      exact List.mem_append_right pre (List.mem_cons_self _ _)

/-- In a tree with non-empty group names, a node inside the subtree of
another records that node's name among its ancestors (unless the two
coincide). -/
theorem nodesN_nodePaths : ∀ (t : Node), nonemptyNames t →
    ∀ (anc : List String) (m' : Node),
    m' ∈ nodesN t → ∀ n' ∈ nodesN m',
      ∃ a, (a, n') ∈ nodePaths anc t ∧ (n' = m' ∨ m'.name ∈ a) := by
  refine node_ind (fun t => nonemptyNames t → ∀ anc m', m' ∈ nodesN t → ∀ n' ∈ nodesN m',
    ∃ a, (a, n') ∈ nodePaths anc t ∧ (n' = m' ∨ m'.name ∈ a)) ?_
  intro nm cs hs ih hne anc m' hm' n' hn'
  rw [nodesN_mk] at hm'
  rcases List.mem_cons.mp hm' with heq | hmem
  · subst heq
    exact nodesN_nodePaths_self _ hne anc n' hn'
  · rcases List.mem_flatMap.mp hmem with ⟨c, hc, hmc⟩
    rcases ih c hc (nonemptyNames_child nm cs hs hne c hc) (nm :: anc) m' hmc n' hn' with
      ⟨a, hpa, hcase⟩
    refine ⟨a, ?_, hcase⟩
    rw [nodePaths_mk, if_neg (nonemptyNames_root nm cs hs hne)]
    exact List.mem_cons_of_mem _ (List.mem_flatMap.mpr ⟨c, hc, hpa⟩)

/-! ## Duality of `ExportHosts` and `ExportGroups` -/

/-- On trees with globally unique and non-empty group names, a host appears
in `ExportGroups` under a group name exactly when that group name appears in
the host's `ExportHosts` list. -/
theorem export_duality (t : Node) (hu : uniqueNames t) (hne : nonemptyNames t)
    (g h : String) :
    memLookup (exportGroups t []) g h ↔ memLookup (exportHosts [] t []) h g := by
  constructor
  · intro hEG
    by_cases hgn : g ∈ namesN t
    · rcases List.mem_map.mp hgn with ⟨n', hn', heqg⟩
      subst heqg
      rw [memLookup, EG_mem t hu n' hn' []] at hEG
      simp only [Option.getD_some] at hEG
      rw [mem_sortStrings] at hEG
      rcases (mem_allHosts n' h).mp hEG with ⟨m'', hm'', hh⟩
      rcases nodesN_nodePaths t hne [] n' hn' m'' hm'' with ⟨a, hpa, hcase⟩
      rw [EH_char t [] [] h n'.name]
      refine Or.inr ⟨(a, m''), hpa, hh, ?_⟩
      rcases hcase with heq2 | hname
      · exact Or.inl (by rw [heq2])
      · exact Or.inr hname
    · exfalso
      rw [memLookup, EG_not t [] g hgn] at hEG
      simp [lookupS] at hEG
  · intro hEH
    rw [EH_char t [] [] h g] at hEH
    rcases hEH with hbase | ⟨pr, hpr, hh, hcase⟩
    · exfalso
      rw [memLookup] at hbase
      simp [lookupS] at hbase
    rcases hcase with heq | hga
    · have hn' := pathNode_mem t [] pr hpr
      rw [memLookup, heq, EG_mem t hu pr.2 hn' []]
      simp only [Option.getD_some]
      rw [mem_sortStrings, mem_allHosts]
      exact ⟨pr.2, self_mem_nodesN pr.2, hh⟩
    · rcases nodePaths_anc_names t hne [] pr hpr g hga with hanc | ⟨m', hm', hname, hsub⟩
      · cases hanc
      · rw [memLookup, ← hname, EG_mem t hu m' hm' []]
        simp only [Option.getD_some]
        rw [mem_sortStrings, mem_allHosts]
        exact ⟨pr.2, hsub, hh⟩

/-! ## Sortedness of exported lists -/

/-- Lexicographic sortedness of a list of strings. -/
def sortedStr (l : List String) : Prop :=
  l.Pairwise fun a b => strLe a b = true

theorem insStr_sorted (h : String) (l : List String) (hl : sortedStr l) :
    sortedStr (insStr h l) := by
  induction l with
  | nil => simp [insStr, sortedStr]
  | cons z zs ih =>
    rw [insStr]
    rcases List.pairwise_cons.mp hl with ⟨hz, hzs⟩
    by_cases hle : strLe h z = true
    · rw [if_pos hle]
      refine List.pairwise_cons.mpr ⟨?_, hl⟩
      intro y hy
      rcases List.mem_cons.mp hy with rfl | hmem
      · exact hle
      · exact strLe_trans hle (hz y hmem)
    · rw [if_neg hle]
      refine List.pairwise_cons.mpr ⟨?_, ih hzs⟩
      intro y hy
      rcases (mem_insStr y h zs).mp hy with heq | hmem
      · subst heq
        rcases strLe_total y z with hcase | hcase
        · exact absurd hcase hle
        · exact hcase
      · exact hz y hmem

theorem insertStr_sorted (h : String) (l : List String) (hl : sortedStr l) :
    sortedStr (insertStr h l) := by
  rw [insertStr]
  by_cases hm : h ∈ l
  · rw [if_pos hm]; exact hl
  · rw [if_neg hm]; exact insStr_sorted h l hl

theorem unionStr_sorted (l acc : List String) (hacc : sortedStr acc) :
    sortedStr (unionStr l acc) := by
  induction l generalizing acc with
  | nil => exact hacc
  | cons x xs ih => exact ih _ (insertStr_sorted x acc hacc)

theorem sortStrings_sorted (l : List String) : sortedStr (sortStrings l) :=
  unionStr_sorted l [] (by simp [sortedStr])

/-- In a canonically sorted tree, every node's children-name list is sorted. -/
theorem childrenNames_sorted : ∀ (t : Node), CSorted t →
    ∀ n ∈ nodesN t, sortedStr (n.children.map Node.name) := by
  refine node_ind (fun t => CSorted t → ∀ n ∈ nodesN t,
    sortedStr (n.children.map Node.name)) ?_
  intro nm cs hs ih hcs n hn
  rw [nodesN_mk] at hn
  rcases List.mem_cons.mp hn with heq | hmem
  · subst heq
    exact (pairwise_names cs).mpr hcs.children_pairwise
  · rcases List.mem_flatMap.mp hmem with ⟨c, hc, hcn⟩
    exact ih c hc (hcs.children_mem c hc) n hcn

theorem exportInventory_mk (nm : String) (cs : List Node) (hs : List String)
    (m : List (String × AnsibleGroup)) :
    exportInventory ⟨nm, cs, hs⟩ m =
      exportInventory.exportInventoryList cs
        (upsertS m nm ⟨cs.map Node.name, sortStrings hs⟩) := rfl

/-- Every value looked up in the inventory export of a canonically sorted
tree has sorted children and host lists. -/
theorem exportInventory_sorted : ∀ (t : Node), CSorted t →
    ∀ (m : List (String × AnsibleGroup)),
      (∀ k v, lookupS m k = some v → sortedStr v.children ∧ sortedStr v.hosts) →
      ∀ k v, lookupS (exportInventory t m) k = some v →
        sortedStr v.children ∧ sortedStr v.hosts := by
  refine node_ind (fun t => CSorted t → ∀ m,
    (∀ k v, lookupS m k = some v → sortedStr v.children ∧ sortedStr v.hosts) →
    ∀ k v, lookupS (exportInventory t m) k = some v →
      sortedStr v.children ∧ sortedStr v.hosts) ?_
  intro nm cs hs ih hcs m hm k v hv
  rw [exportInventory_mk] at hv
  have hup : ∀ k v, lookupS (upsertS m nm ⟨cs.map Node.name, sortStrings hs⟩) k = some v →
      sortedStr v.children ∧ sortedStr v.hosts := by
    intro k' v' hv'
    rcases lookupS_upsert_cases m nm k' _ v' hv' with heq | hold
    · subst heq
      exact ⟨(pairwise_names cs).mpr hcs.children_pairwise, sortStrings_sorted hs⟩
    · exact hm k' v' hold
  have hlist : ∀ (ds : List Node),
      (∀ c ∈ ds, CSorted c → ∀ m,
        (∀ k v, lookupS m k = some v → sortedStr v.children ∧ sortedStr v.hosts) →
        ∀ k v, lookupS (exportInventory c m) k = some v →
          sortedStr v.children ∧ sortedStr v.hosts) →
      (∀ c ∈ ds, CSorted c) →
      ∀ m, (∀ k v, lookupS m k = some v → sortedStr v.children ∧ sortedStr v.hosts) →
      ∀ k v, lookupS (exportInventory.exportInventoryList ds m) k = some v →
        sortedStr v.children ∧ sortedStr v.hosts := by
    intro ds
    induction ds with
    | nil => intro _ _ m' hm' k' v' hv'; exact hm' k' v' hv'
    | cons d ds ihd =>
      intro hmem hsort m' hm' k' v' hv'
      rw [exportInventory.exportInventoryList] at hv'
      exact ihd (fun c hc => hmem c (by simp [hc])) (fun c hc => hsort c (by simp [hc]))
        (exportInventory d m') (hmem d (by simp) (hsort d (by simp)) m' hm') k' v' hv'
  exact hlist cs ih (fun c hc => hcs.children_mem c hc) _ hup k v hv

theorem exportGroups_sorted : ∀ (t : Node) (m : List (String × List String)),
    (∀ k v, lookupS m k = some v → sortedStr v) →
    ∀ k v, lookupS (exportGroups t m) k = some v → sortedStr v := by
  refine node_ind (fun t => ∀ m, (∀ k v, lookupS m k = some v → sortedStr v) →
    ∀ k v, lookupS (exportGroups t m) k = some v → sortedStr v) ?_
  intro nm cs hs ih m hm k v hv
  rw [exportGroups_mk] at hv
  have hup : ∀ k v, lookupS (upsertS m nm (sortStrings (allHosts ⟨nm, cs, hs⟩))) k = some v →
      sortedStr v := by
    intro k' v' hv'
    rcases lookupS_upsert_cases m nm k' _ v' hv' with heq | hold
    · subst heq
      exact sortStrings_sorted _
    · exact hm k' v' hold
  have hlist : ∀ (ds : List Node),
      (∀ c ∈ ds, ∀ m, (∀ k v, lookupS m k = some v → sortedStr v) →
        ∀ k v, lookupS (exportGroups c m) k = some v → sortedStr v) →
      ∀ m, (∀ k v, lookupS m k = some v → sortedStr v) →
      ∀ k v, lookupS (exportGroups.exportGroupsList ds m) k = some v → sortedStr v := by
    intro ds
    induction ds with
    | nil => intro _ m' hm' k' v' hv'; exact hm' k' v' hv'
    | cons d ds ihd =>
      intro hmem m' hm' k' v' hv'
      rw [exportGroups.exportGroupsList] at hv'
      exact ihd (fun c hc => hmem c (by simp [hc])) (exportGroups d m')
        (hmem d (by simp) m' hm') k' v' hv'
  exact hlist cs ih _ hup k v hv

theorem addHostGroups_sorted (names : List String) (hs : List String) :
    ∀ (m : List (String × List String)),
      (∀ k v, lookupS m k = some v → sortedStr v) →
      ∀ k v, lookupS (addHostGroups names m hs) k = some v → sortedStr v := by
  induction hs with
  | nil => intro m hm k v hv; exact hm k v hv
  | cons h0 hs ih =>
    intro m hm k v hv
    rw [addHostGroups] at hv
    refine ih _ ?_ k v hv
    intro k' v' hv'
    rcases lookupS_upsert_cases m h0 k' _ v' hv' with heq | hold
    · subst heq
      exact unionStr_sorted names _ (sortStrings_sorted _)
    · exact hm k' v' hold

theorem exportHosts_sorted : ∀ (t : Node) (anc : List String)
    (m : List (String × List String)),
    (∀ k v, lookupS m k = some v → sortedStr v) →
    ∀ k v, lookupS (exportHosts anc t m) k = some v → sortedStr v := by
  refine node_ind (fun t => ∀ anc m, (∀ k v, lookupS m k = some v → sortedStr v) →
    ∀ k v, lookupS (exportHosts anc t m) k = some v → sortedStr v) ?_
  intro nm cs hs ih anc m hm k v hv
  rw [exportHosts_mk] at hv
  have hlist : ∀ (ds : List Node),
      (∀ c ∈ ds, ∀ anc m, (∀ k v, lookupS m k = some v → sortedStr v) →
        ∀ k v, lookupS (exportHosts anc c m) k = some v → sortedStr v) →
      ∀ (anc : List String) m, (∀ k v, lookupS m k = some v → sortedStr v) →
      ∀ k v, lookupS (exportHosts.exportHostsList anc ds m) k = some v → sortedStr v := by
    intro ds
    induction ds with
    | nil => intro _ _ m' hm' k' v' hv'; exact hm' k' v' hv'
    | cons d ds ihd =>
      intro hmem anc' m' hm' k' v' hv'
      rw [exportHosts.exportHostsList] at hv'
      exact ihd (fun c hc => hmem c (by simp [hc])) anc' (exportHosts anc' d m')
        (hmem d (by simp) anc' m' hm') k' v' hv'
  exact hlist cs ih _ _ (addHostGroups_sorted (nm :: anc) hs m hm) k v hv

/-! ## Helper lemmas for the claim theorems -/

theorem goSplit_empty (sep : String) : goSplit "" sep = [""] := by
  rw [goSplit]
  by_cases h : sep.data = []
  · rw [if_pos h]
  · rw [if_neg h]
    rfl

theorem servicePath_empty_srv (sep env : String) (a : HostAttributes) (h : a.srv = "") :
    servicePath sep env a = [env, env ++ sep ++ a.role] := by
  rw [servicePath, h, goSplit_empty]
  have hchain : chainAux sep env a.env 0 (env ++ sep ++ a.role) [""] = [] := by
    rw [chainAux, if_neg, chainAux]
    rintro ⟨h1, -⟩
    simp at h1
  rw [hchain]

theorem expandAttrs_empty_srv (a : HostAttributes) (h : a.srv = "") :
    expandAttrs a = (goSplit a.role ",").map fun r => ⟨a.os, a.env, r, "", a.vars⟩ := by
  rw [expandAttrs, h, goSplit_empty]
  generalize goSplit a.role "," = l
  induction l with
  | nil => rfl
  | cons r rs ih =>
    simp only [List.flatMap_cons, List.map_cons, List.map_nil, List.singleton_append] at ih ⊢
    rw [ih]

theorem nonzero_iff (s : String) : nonzero s = true ↔ s ≠ "" := by
  rw [nonzero]
  constructor
  · intro h heq
    subst heq
    exact absurd h (by decide)
  · intro h
    cases hs : s.data with
    | nil => exact absurd (eq_empty_of_data_nil s hs) h
    | cons c cs => simp [hs]

theorem safeAttr_default (sep s : String) :
    safeAttr sep "" s = s.data.all fun c => isAlnum c || (sep = "-" && c = '_') := rfl

/-- The OS/Env acceptance rule exactly as the spec's sentence states it:
non-blank, alphanumeric, plus the configured group-name separator character
itself when that separator is an underscore or a hyphen.  (Modelled from the
spec's words, for comparison with `acceptOsEnv`, which is modelled from the
code.) -/
def claimedOsEnv (sep s : String) : Bool :=
  nonzero s && s.data.all fun c =>
    isAlnum c || ((sep = "_" || sep = "-") && (⟨[c]⟩ : String) = sep)

/-! ## The claim theorems -/

/-- C1: importing the single record `(app01, OS=linux, ENV=dev, ROLE=app,
SRV=tomcat_backend_auth)` into a fresh tree with separator `"_"` produces
exactly the chains `all → all_app → all_app_tomcat{app01}` (the service chain
under the synthetic `"all"` environment stops after the first segment),
`dev → dev_app → dev_app_tomcat → dev_app_tomcat_backend →
dev_app_tomcat_backend_auth{app01}`, and the OS chains
`all_host → all_host_linux{app01}` and `dev_host → dev_host_linux{app01}`. -/
theorem c1_scenario_single_record :
    importHosts "_" [("app01", ⟨"linux", "dev", "app", "tomcat_backend_auth", ""⟩)] newTree =
      ⟨"all",
        [⟨"all_app", [⟨"all_app_tomcat", [], ["app01"]⟩], []⟩,
         ⟨"all_host", [⟨"all_host_linux", [], ["app01"]⟩], []⟩,
         ⟨"dev",
           [⟨"dev_app",
              [⟨"dev_app_tomcat",
                 [⟨"dev_app_tomcat_backend",
                    [⟨"dev_app_tomcat_backend_auth", [], ["app01"]⟩], []⟩], []⟩], []⟩,
            ⟨"dev_host", [⟨"dev_host_linux", [], ["app01"]⟩], []⟩], []⟩],
        []⟩ := rfl

/-- C2 (amended): for a tree built by `ImportHosts` in which all group names
are distinct and non-empty, `ExportGroups` and `ExportHosts` are duals:
host `h` is in `ExportGroups[g]` iff group `g` is in `ExportHosts[h]`.
Both hypotheses are necessary: `ExportGroups` overwrites the entry of a
repeated group name (see the counterexample), and below an empty-named
group (created e.g. by a record with `Env=""`) the `GetAncestors` parent
walk stops, so the groups above it never enter the `ExportHosts` lists
while `ExportGroups` still credits them with the subtree's hosts. -/
theorem c2_duality_of_unique_names (sep : String)
    (pairs : List (String × HostAttributes))
    (hu : uniqueNames (importHosts sep pairs newTree))
    (hne : nonemptyNames (importHosts sep pairs newTree)) (g h : String) :
    memLookup (exportGroups (importHosts sep pairs newTree) []) g h ↔
      memLookup (exportHosts [] (importHosts sep pairs newTree) []) h g :=
  export_duality _ hu hne g h

theorem c2_duality_witness :
    uniqueNames (importHosts "_"
      [("app01", ⟨"linux", "dev", "app", "tomcat_backend_auth", ""⟩)] newTree) ∧
    nonemptyNames (importHosts "_"
      [("app01", ⟨"linux", "dev", "app", "tomcat_backend_auth", ""⟩)] newTree) ∧
    (memLookup (exportGroups (importHosts "_"
        [("app01", ⟨"linux", "dev", "app", "tomcat_backend_auth", ""⟩)] newTree) [])
        "dev_app_tomcat_backend_auth" "app01" ↔
      memLookup (exportHosts [] (importHosts "_"
        [("app01", ⟨"linux", "dev", "app", "tomcat_backend_auth", ""⟩)] newTree) [])
        "app01" "dev_app_tomcat_backend_auth") :=
  ⟨by unfold uniqueNames; decide,
   by unfold nonemptyNames; decide,
   c2_duality_of_unique_names "_"
     [("app01", ⟨"linux", "dev", "app", "tomcat_backend_auth", ""⟩)]
     (by unfold uniqueNames; decide) (by unfold nonemptyNames; decide)
     "dev_app_tomcat_backend_auth" "app01"⟩

/-- C2, counterexample to the unconditional duality: two records whose
attribute values collide on the group name `a_b_c` (`ENV=a, ROLE=b_c` for
`h1` and `ENV=a_b, ROLE=c` for `h2`).  `a_b_c` appears in `ExportHosts[h1]`,
but `ExportGroups["a_b_c"]` is overwritten by the second node of that name
and lists only `h2`. -/
theorem c2_duality_counterexample :
    memLookup (exportHosts [] (importHosts "_"
        [("h1", ⟨"o", "a", "b_c", "", ""⟩), ("h2", ⟨"o", "a_b", "c", "", ""⟩)] newTree) [])
      "h1" "a_b_c" ∧
    ¬ memLookup (exportGroups (importHosts "_"
        [("h1", ⟨"o", "a", "b_c", "", ""⟩), ("h2", ⟨"o", "a_b", "c", "", ""⟩)] newTree) [])
      "a_b_c" "h1" := by
  constructor
  · unfold memLookup
    decide
  · unfold memLookup
    decide

/-- C3: `ImportHosts` (which ends in `SortChildren`) is idempotent — importing
the same pair list a second time returns the very same tree, so no node gains
a duplicate child and no host set changes. -/
theorem c3_import_idempotent (sep : String) (pairs : List (String × HostAttributes))
    (t : Node) :
    importHosts sep pairs (importHosts sep pairs t) = importHosts sep pairs t :=
  importHosts_idem_aux sep pairs t

/-- C4: the built tree is insertion-order independent — `ImportHosts` (which
ends in `SortChildren`) on a fresh root produces identical trees from any two
enumeration orders of the same `(hostname, attributes)` collection. -/
theorem c4_order_independent (sep : String) {l l' : List (String × HostAttributes)}
    (hp : l.Perm l') :
    importHosts sep l newTree = importHosts sep l' newTree :=
  importHosts_perm_aux sep hp newTree

theorem c4_order_witness :
    ([("h1", (⟨"o", "a", "r1", "", ""⟩ : HostAttributes)), ("h2", ⟨"o", "b", "r2", "", ""⟩)].Perm
      [("h2", (⟨"o", "b", "r2", "", ""⟩ : HostAttributes)), ("h1", ⟨"o", "a", "r1", "", ""⟩)]) ∧
    importHosts "_" [("h1", ⟨"o", "a", "r1", "", ""⟩), ("h2", ⟨"o", "b", "r2", "", ""⟩)] newTree =
      importHosts "_" [("h2", ⟨"o", "b", "r2", "", ""⟩), ("h1", ⟨"o", "a", "r1", "", ""⟩)] newTree :=
  ⟨List.Perm.swap ("h2", (⟨"o", "b", "r2", "", ""⟩ : HostAttributes))
     ("h1", ⟨"o", "a", "r1", "", ""⟩) [],
   c4_order_independent "_"
     (List.Perm.swap ("h2", (⟨"o", "b", "r2", "", ""⟩ : HostAttributes))
       ("h1", ⟨"o", "a", "r1", "", ""⟩) [])⟩

/-- C5: on a tree to which `SortChildren` has been applied, every list in the
three exports is lexicographically sorted: children and host lists in
`ExportInventory`, group lists in `ExportHosts`, host lists in
`ExportGroups`. -/
theorem c5_exports_sorted (t : Node) :
    (∀ k v, lookupS (exportInventory (sortChildren t) []) k = some v →
      sortedStr v.children ∧ sortedStr v.hosts) ∧
    (∀ k v, lookupS (exportHosts [] (sortChildren t) []) k = some v → sortedStr v) ∧
    (∀ k v, lookupS (exportGroups (sortChildren t) []) k = some v → sortedStr v) :=
  ⟨exportInventory_sorted _ (CSorted_sortChildren t) []
      (fun k v h => by simp [lookupS] at h),
   exportHosts_sorted _ [] [] (fun k v h => by simp [lookupS] at h),
   exportGroups_sorted _ [] (fun k v h => by simp [lookupS] at h)⟩

theorem c5_exports_sorted_witness :
    (sortedStr (AnsibleGroup.mk ["dev_app_tomcat"] []).children ∧
      sortedStr (AnsibleGroup.mk ["dev_app_tomcat"] []).hosts) ∧
    sortedStr ["all", "all_app", "all_app_tomcat", "all_host", "all_host_linux", "dev",
      "dev_app", "dev_app_tomcat", "dev_app_tomcat_backend", "dev_app_tomcat_backend_auth",
      "dev_host", "dev_host_linux"] ∧
    sortedStr ["app01"] :=
  ⟨(c5_exports_sorted (importHosts "_"
      [("app01", ⟨"linux", "dev", "app", "tomcat_backend_auth", ""⟩)] newTree)).1
      "dev_app" ⟨["dev_app_tomcat"], []⟩ rfl,
   (c5_exports_sorted (importHosts "_"
      [("app01", ⟨"linux", "dev", "app", "tomcat_backend_auth", ""⟩)] newTree)).2.1
      "app01"
      ["all", "all_app", "all_app_tomcat", "all_host", "all_host_linux", "dev",
       "dev_app", "dev_app_tomcat", "dev_app_tomcat_backend", "dev_app_tomcat_backend_auth",
       "dev_host", "dev_host_linux"] rfl,
   (c5_exports_sorted (importHosts "_"
      [("app01", ⟨"linux", "dev", "app", "tomcat_backend_auth", ""⟩)] newTree)).2.2
      "all" ["app01"] rfl⟩

/-- C6: refuted (code bug).  `ParseAttributes` is not total on its string
input: on the raw string `"OS"` (a known key with no key/value separator)
the Go expression `kv[1]` indexes past the end of the one-element slice
returned by `strings.SplitN`, a runtime panic that crashes the run; the
embedding models that panic as `none` — neither a record nor an error
value. -/
theorem c6_parse_bare_key_panics :
    parseAttributes defaultConfig "OS" = none := rfl

/-- C7 (amended): `GetHosts` fails with the error `"no host records found"`
exactly when the datasource returned zero records.  When records were
returned but every one of them was rejected by attribute validation, it
does not fail — it returns an ok empty map (see the counterexample). -/
theorem c7_getHosts_error_iff_no_records (cfg : Config) (records : List DatasourceRecord) :
    (∃ e, getHosts cfg records = some (Except.error e)) ↔ records = [] := by
  rw [getHosts]
  by_cases h : records = []
  · simp [h]
  · rw [if_neg h]
    constructor
    · rintro ⟨e, he⟩
      cases hp : processRecords cfg records [] with
      | none => rw [hp] at he; simp at he
      | some m => rw [hp] at he; simp at he
    · intro heq
      exact absurd heq h

/-- C7, counterexample to the claimed all-records-rejected failure: a
datasource that returns one record whose attributes fail validation (`l!` is
not a safe OS value) leaves zero usable records, yet `GetHosts` returns an
ok empty host map instead of an error. -/
theorem c7_all_rejected_counterexample :
    getHosts defaultConfig [⟨"h1", "OS=l!;ENV=d;ROLE=r"⟩] = some (Except.ok []) := rfl

/-- C8: a record with an empty `Srv` expands to exactly one entry per role
(with the empty single service), and its role/service group-name path stops
at the role group `env ++ sep ++ role` — no service-chain descendants are
created below it. -/
theorem c8_empty_srv (a : HostAttributes) (h : a.srv = "") :
    expandAttrs a = (goSplit a.role ",").map (fun r => ⟨a.os, a.env, r, "", a.vars⟩) ∧
    (expandAttrs a).length = (goSplit a.role ",").length ∧
    ∀ sep env, servicePath sep env a = [env, env ++ sep ++ a.role] :=
  ⟨expandAttrs_empty_srv a h,
   by rw [expandAttrs_empty_srv a h, List.length_map],
   fun sep env => servicePath_empty_srv sep env a h⟩

theorem c8_empty_srv_witness :
    expandAttrs ⟨"linux", "dev", "app", "", ""⟩ =
      [(⟨"linux", "dev", "app", "", ""⟩ : HostAttributes)] ∧
    servicePath "_" "dev" ⟨"linux", "dev", "app", "", ""⟩ = ["dev", "dev_app"] :=
  ⟨(c8_empty_srv ⟨"linux", "dev", "app", "", ""⟩ rfl).1,
   (c8_empty_srv ⟨"linux", "dev", "app", "", ""⟩ rfl).2.2 "_" "dev"⟩

/-- C9 (amended): attribute validation accepts an OS or Env value iff it is
non-blank and every character is alphanumeric or — only when the configured
group-name separator is a hyphen — an underscore.  (The hyphen itself is
never accepted, and no carve-out exists when the separator is an
underscore; the spec's version of the carve-out is refuted by the
counterexample.) -/
theorem c9_osenv_acceptance (sep s : String) :
    acceptOsEnv sep s = true ↔
      s ≠ "" ∧ ∀ c ∈ s.data, isAlnum c = true ∨ (sep = "-" ∧ c = '_') := by
  rw [acceptOsEnv, Bool.and_eq_true, nonzero_iff, safeAttr_default, List.all_eq_true]
  simp only [Bool.or_eq_true, Bool.and_eq_true, decide_eq_true_eq]

theorem c9_osenv_acceptance_witness :
    acceptOsEnv "-" "a_b" = true ∧
    ("a_b" ≠ "" ∧ ∀ c ∈ ("a_b" : String).data,
      isAlnum c = true ∨ (("-" : String) = "-" ∧ c = '_')) :=
  ⟨by decide, (c9_osenv_acceptance "-" "a_b").mp (by decide)⟩

/-- C9, counterexample to the carve-out as the spec states it: with the
group-name separator configured as `"_"`, the spec's rule accepts the Env
value `"a_b"` (the separator character is an underscore), but the code's
validator rejects it — the underscore is only ever admitted when the
separator is `"-"`. -/
theorem c9_carveout_counterexample :
    claimedOsEnv "_" "a_b" = true ∧ acceptOsEnv "_" "a_b" = false := by
  constructor
  · decide
  · decide

/-- C10 (amended): over any sequence of `ImportHosts` calls on a tree created
by `NewTree`, where every record carries a non-empty role, the root `"all"`
node's own host set stays empty — hosts are only attached to descendant
groups.  (The claim's stronger "at least two levels below the root" is
refuted by the counterexample: with an empty `Srv` the host lands on the
depth-one role group `all_<role>`.) -/
theorem c10_root_owns_no_hosts (sep : String)
    (batches : List (List (String × HostAttributes)))
    (hroles : ∀ b ∈ batches, ∀ p ∈ b, p.2.role ≠ "") :
    (batches.foldl (fun t b => importHosts sep b t) newTree).hosts = [] := by
  have aux : ∀ (bs : List (List (String × HostAttributes))) (t : Node), t.name = "all" →
      (∀ b ∈ bs, ∀ p ∈ b, p.2.role ≠ "") →
      (bs.foldl (fun t b => importHosts sep b t) t).hosts = t.hosts := by
    intro bs
    induction bs with
    | nil => intro t _ _; rfl
    | cons b bs ih =>
      intro t hname hr
      rw [List.foldl_cons,
        ih (importHosts sep b t) (by rw [name_importHosts, hname])
          (fun b' hb' => hr b' (List.mem_cons_of_mem b hb'))]
      exact hosts_importHosts_of_roles sep b t hname (hr b (List.mem_cons_self b bs))
  exact aux batches newTree rfl hroles

theorem c10_root_witness :
    (∀ b ∈ [[("app01", (⟨"linux", "dev", "app", "tomcat_backend_auth", ""⟩ : HostAttributes))]],
      ∀ p ∈ b, p.2.role ≠ "") ∧
    ([[("app01", (⟨"linux", "dev", "app", "tomcat_backend_auth", ""⟩ : HostAttributes))]].foldl
      (fun t b => importHosts "_" b t) newTree).hosts = [] :=
  ⟨by decide,
   c10_root_owns_no_hosts "_"
     [[("app01", ⟨"linux", "dev", "app", "tomcat_backend_auth", ""⟩)]] (by decide)⟩

/-- C10, counterexample to the depth-two placement: a record with a non-empty
role but empty `Srv` attaches its host to `all_app`, a direct child of the
root — one level below it, not two. -/
theorem c10_depth_counterexample :
    (importHosts "_" [("web01", ⟨"linux", "dev", "app", "", ""⟩)] newTree).children.map
        (fun c => (c.name, c.hosts)) =
      [("all_app", ["web01"]), ("all_host", []), ("dev", [])] := rfl

end ADI
